import Mathlib

/-!
Verification of the Supertonic text-to-speech worker (JavaScript).

A JavaScript string is a sequence of UTF-16 code units; we embed it as
`List Nat`, one entry per code unit. All string-processing functions below
are translated from the worker source (regex patterns are pre-compiled
character scans; `String.prototype.replaceAll` of a plain pattern is a
left-to-right non-overlapping scan that does not rescan the replacement).
-/

set_option maxRecDepth 10000

/-- A JavaScript string: its UTF-16 code units. -/
abbrev JStr := List Nat

/-- Code points of an ASCII string literal, for readable tables. -/
def ascii (s : String) : JStr := s.data.map Char.toNat

/-- The character class of JavaScript regex `\s` (also the set trimmed by
`String.prototype.trim`): tab, LF, VT, FF, CR, space, NBSP, and the Unicode
space separators. -/
def isWS (c : Nat) : Bool :=
  c = 0x9 || c = 0xA || c = 0xB || c = 0xC || c = 0xD || c = 0x20 ||
  c = 0xA0 || c = 0x1680 || (0x2000 ≤ c && c ≤ 0x200A) || c = 0x2028 ||
  c = 0x2029 || c = 0x202F || c = 0x205F || c = 0x3000 || c = 0xFEFF

/-- `EMOJI_PATTERN`'s code-point ranges (the `/u` regex matches by code point). -/
def isEmojiCP (c : Nat) : Bool :=
  (0x1F600 ≤ c && c ≤ 0x1F64F) || (0x1F300 ≤ c && c ≤ 0x1F5FF) ||
  (0x1F680 ≤ c && c ≤ 0x1F6FF) || (0x1F700 ≤ c && c ≤ 0x1F77F) ||
  (0x1F780 ≤ c && c ≤ 0x1F7FF) || (0x1F800 ≤ c && c ≤ 0x1F8FF) ||
  (0x1F900 ≤ c && c ≤ 0x1F9FF) || (0x1FA00 ≤ c && c ≤ 0x1FA6F) ||
  (0x1FA70 ≤ c && c ≤ 0x1FAFF) || (0x2600 ≤ c && c ≤ 0x26FF) ||
  (0x2700 ≤ c && c ≤ 0x27BF) || (0x1F1E6 ≤ c && c ≤ 0x1F1FF)

def isHighSurrogate (c : Nat) : Bool := 0xD800 ≤ c && c ≤ 0xDBFF

def isLowSurrogate (c : Nat) : Bool := 0xDC00 ≤ c && c ≤ 0xDFFF

/-- The code point of a surrogate pair. -/
def combineSurrogates (hi lo : Nat) : Nat :=
  0x10000 + (hi - 0xD800) * 0x400 + (lo - 0xDC00)

/-- `text.replace(EMOJI_PATTERN, '')`: delete every code point in the emoji
ranges; a `/u` regex decodes surrogate pairs, a lone surrogate stands for
itself and matches no range. -/
def stripEmoji : JStr → JStr
  | [] => []
  | [a] => if isEmojiCP a then [] else [a]
  | a :: b :: rest =>
    if isHighSurrogate a && isLowSurrogate b then
      if isEmojiCP (combineSurrogates a b) then stripEmoji rest
      else a :: b :: stripEmoji rest
    else if isEmojiCP a then stripEmoji (b :: rest)
    else a :: stripEmoji (b :: rest)

/-- Scanner for `String.prototype.replaceAll` with a plain (non-regex)
pattern: at each position, either the pattern matches and is replaced (the
scan resumes after the match, `skip` counts the pattern units still to drop),
or one unit is copied. -/
def replAux (pat repl : JStr) : Nat → JStr → JStr
  | _, [] => []
  | skip + 1, _ :: rest => replAux pat repl skip rest
  | 0, a :: rest =>
    if pat.isPrefixOf (a :: rest) then repl ++ replAux pat repl (pat.length - 1) rest
    else a :: replAux pat repl 0 rest

/-- `s.replaceAll(pat, repl)` for a non-empty plain pattern. -/
def replaceAll (pat repl s : JStr) : JStr := replAux pat repl 0 s

/-- `s.replace(pat, repl)` with a plain pattern: replace the first occurrence. -/
def replaceFirst (pat repl : JStr) : JStr → JStr
  | [] => []
  | a :: rest =>
    if pat.isPrefixOf (a :: rest) then repl ++ (a :: rest).drop pat.length
    else a :: replaceFirst pat repl rest

/-- `s.includes(pat)`. -/
def containsSub (pat : JStr) : JStr → Bool
  | [] => pat.isEmpty
  | a :: rest => pat.isPrefixOf (a :: rest) || containsSub pat rest

/-- The `while (text.includes(pattern)) text = text.replace(pattern,
replacement)` loop, driven by fuel. -/
def dupLoop (pat repl : JStr) : Nat → JStr → JStr
  | 0, s => s
  | fuel + 1, s =>
    if containsSub pat s then dupLoop pat repl fuel (replaceFirst pat repl s) else s

/-- The duplicate-quote collapse loop: each replacement of a two-unit pattern
by one unit shortens the string, so `s.length` rounds of fuel always suffice. -/
def collapseDup (pat repl s : JStr) : JStr := dupLoop pat repl s.length s

/-- `DUPLICATE_QUOTES`: `""` → `"`, `''` → `'`, and backtick pairs. -/
def DUPLICATE_QUOTES : List (JStr × JStr) :=
  [([0x22, 0x22], [0x22]), ([0x27, 0x27], [0x27]), ([0x60, 0x60], [0x60])]

def dupQuotes (s : JStr) : JStr :=
  DUPLICATE_QUOTES.foldl (fun acc p => collapseDup p.1 p.2 acc) s

/-- `CHAR_REPLACEMENTS`, in `Object.entries` order. All keys and values are
single code units. The source's object literal lists the key `"` twice with
the value `"` (the intended smart quotes were lost), so the object holds a
single identity entry for `"`. -/
def CHAR_REPLACEMENTS : List (Nat × Nat) :=
  [(0x2013, 0x2D), (0x2011, 0x2D), (0x2014, 0x2D), (0xAF, 0x20), (0x5F, 0x20),
   (0x22, 0x22), (0x2018, 0x27), (0x2019, 0x27),
   (0xB4, 0x27), (0x60, 0x27), (0x5B, 0x20), (0x5D, 0x20), (0x7C, 0x20),
   (0x2F, 0x20), (0x23, 0x20), (0x2192, 0x20), (0x2190, 0x20)]

/-- The `for (const [k, v] of Object.entries(CHAR_REPLACEMENTS))` loop of
`replaceAll` calls. -/
def charReplacements (s : JStr) : JStr :=
  CHAR_REPLACEMENTS.foldl (fun acc kv => replaceAll [kv.1] [kv.2] acc) s

/-- `DIACRITICS_PATTERN`'s combining marks. -/
def isDiacritic (c : Nat) : Bool :=
  c = 0x302 || c = 0x303 || c = 0x304 || c = 0x305 || c = 0x306 || c = 0x307 ||
  c = 0x308 || c = 0x30A || c = 0x30B || c = 0x30C || c = 0x327 || c = 0x328 ||
  c = 0x329 || c = 0x32A || c = 0x32B || c = 0x32C || c = 0x32D || c = 0x32E ||
  c = 0x32F

/-- `SPECIAL_SYMBOLS_PATTERN`: heart, star, heart outline, copyright, backslash. -/
def isSpecialSymbol (c : Nat) : Bool :=
  c = 0x2665 || c = 0x2606 || c = 0x2661 || c = 0xA9 || c = 0x5C

/-- `EXPR_REPLACEMENTS`, in `Object.entries` order. -/
def EXPR_REPLACEMENTS : List (JStr × JStr) :=
  [(ascii "@", ascii " at "),
   (ascii "e.g.,", ascii "for example, "),
   (ascii "i.e.,", ascii "that is, ")]

def exprReplacements (s : JStr) : JStr :=
  EXPR_REPLACEMENTS.foldl (fun acc kv => replaceAll kv.1 kv.2 acc) s

/-- The capture class of `SPACING_PUNCTUATION_PATTERN`: `[,.!?;:']`. -/
def isSpacingPunct (c : Nat) : Bool :=
  c = 0x2C || c = 0x2E || c = 0x21 || c = 0x3F || c = 0x3B || c = 0x3A || c = 0x27

/-- `text.replace(/ ([,.!?;:'])/g, '$1')`: a global regex scan; each
non-overlapping match of a space followed by the punctuation mark is replaced
by the mark alone and scanning resumes after it. -/
def spacingPunct : JStr → JStr
  | [] => []
  | [a] => [a]
  | a :: b :: rest =>
    if a = 0x20 && isSpacingPunct b then b :: spacingPunct rest
    else a :: spacingPunct (b :: rest)

/-- `text.replace(/\s+/g, ' ')`: every maximal whitespace run becomes one
space. `inRun` records that the scanner is inside a run already replaced. -/
def cwAux (inRun : Bool) : JStr → JStr
  | [] => []
  | a :: rest =>
    if isWS a then
      if inRun then cwAux true rest else 0x20 :: cwAux true rest
    else a :: cwAux false rest

def collapseWS (s : JStr) : JStr := cwAux false s

/-- `String.prototype.trim`. -/
def trimJS (s : JStr) : JStr :=
  ((s.dropWhile isWS).reverse.dropWhile isWS).reverse

/-- The character set of `ENDING_PUNCTUATION_PATTERN`. -/
def isTerminalPunct (c : Nat) : Bool :=
  c = 0x2E || c = 0x21 || c = 0x3F || c = 0x3B || c = 0x3A || c = 0x2C ||
  c = 0x27 || c = 0x22 || c = 0x29 || c = 0x5D || c = 0x7D || c = 0x2026 ||
  c = 0x3002 || c = 0x300D || c = 0x300F || c = 0x3011 || c = 0x3009 ||
  c = 0x300B || c = 0x203A || c = 0xBB

/-- `ENDING_PUNCTUATION_PATTERN.test(text)`: the last code unit is one of the
terminal punctuation marks (`false` on the empty string). -/
def endsTerminal (s : JStr) : Bool :=
  match s.getLast? with
  | some c => isTerminalPunct c
  | none => false

/-- Steps 1-9 of `UnicodeProcessor.preprocessText` (everything before the
terminal-punctuation check). `nfkd` models the engine's
`String.prototype.normalize('NFKD')`, which this development treats as a
parameter (it is the identity on strings without decomposable characters,
in particular on ASCII). -/
def preNormalize (nfkd : JStr → JStr) (text : JStr) : JStr :=
  let t1 := nfkd text
  let t2 := stripEmoji t1
  let t3 := charReplacements t2
  let t4 := t3.filter (fun c => !(isDiacritic c))
  let t5 := t4.filter (fun c => !(isSpecialSymbol c))
  let t6 := exprReplacements t5
  let t7 := spacingPunct t6
  let t8 := dupQuotes t7
  trimJS (collapseWS t8)

/-- `UnicodeProcessor.preprocessText`. -/
def preprocessText (nfkd : JStr → JStr) (text : JStr) : JStr :=
  let t9 := preNormalize nfkd text
  if endsTerminal t9 then t9 else t9 ++ [0x2E]

/-! ### Text chunking (`chunkText`) -/

def isUpperAlpha (c : Nat) : Bool := 0x41 ≤ c && c ≤ 0x5A

/-- JavaScript regex word character `\w`. -/
def isWordChar (c : Nat) : Bool :=
  (0x41 ≤ c && c ≤ 0x5A) || (0x61 ≤ c && c ≤ 0x7A) || (0x30 ≤ c && c ≤ 0x39) || c = 0x5F

/-- The abbreviation alternatives of `SENTENCE_SPLIT_PATTERN`'s first
lookbehind. -/
def ABBREVIATIONS : List JStr :=
  [ascii "Mr.", ascii "Mrs.", ascii "Ms.", ascii "Dr.", ascii "Prof.",
   ascii "Sr.", ascii "Jr.", ascii "Ph.D.", ascii "etc.", ascii "e.g.",
   ascii "i.e.", ascii "vs.", ascii "Inc.", ascii "Ltd.", ascii "Co.",
   ascii "Corp.", ascii "St.", ascii "Ave.", ascii "Blvd."]

/-- `(?<!\b[A-Z]\.)` read on the reversed prefix before the match position:
a period, preceded by a capital letter, preceded by a word boundary. -/
def isInitialRev : JStr → Bool
  | 0x2E :: u :: rest =>
    isUpperAlpha u &&
      (match rest with
       | [] => true
       | d :: _ => !(isWordChar d))
  | _ => false

/-- Whether a `SENTENCE_SPLIT_PATTERN` match may start at the position whose
preceding characters, nearest first, are `prevRev`: `(?<=[.!?])`, not inside
an abbreviation, not after an initial. The `\s+` itself is checked by the
caller. -/
def sentenceBoundary (prevRev : JStr) : Bool :=
  (match prevRev with
   | c :: _ => c = 0x2E || c = 0x21 || c = 0x3F
   | [] => false) &&
  !(ABBREVIATIONS.any (fun a => a.reverse.isPrefixOf prevRev)) &&
  !(isInitialRev prevRev)

/-- `paragraph.split(SENTENCE_SPLIT_PATTERN)` as a single left-to-right scan.
`inRun` is true while consuming the `\s+` of a match (greedy, no further
lookbehind); `prevRev` holds the characters already passed, nearest first;
`cur` the piece being built; `acc` the finished pieces. A match at the very
end yields a final empty piece, as `String.prototype.split` does. -/
def sentGo : Bool → JStr → JStr → List JStr → JStr → List JStr
  | inRun, _, cur, acc, [] => if inRun then acc ++ [[]] else acc ++ [cur]
  | true, prevRev, cur, acc, c :: rest =>
    if isWS c then sentGo true (c :: prevRev) cur acc rest
    else sentGo false (c :: prevRev) [c] acc rest
  | false, prevRev, cur, acc, c :: rest =>
    if isWS c && sentenceBoundary prevRev then
      sentGo true (c :: prevRev) [] (acc ++ [cur]) rest
    else sentGo false (c :: prevRev) (cur ++ [c]) acc rest

def splitSentences (s : JStr) : List JStr := sentGo false [] [] [] s

/-- For a position where the text starts with `\n`: the length of the
`/\n\s*\n+/` match there, if any. The greedy `\s*` backtracks until `\n+`
can match, so the match runs to just past the last newline of the maximal
whitespace run, and exists only if that run holds a second newline. -/
def paraMatchLen (s : JStr) : Option Nat :=
  let run := s.takeWhile isWS
  match run.reverse.findIdx? (fun c => c = 0xA) with
  | some k =>
    let p := run.length - 1 - k
    if 1 ≤ p then some (p + 1) else none
  | none => none

/-- `text.split(/\n\s*\n+/)`, scanning with fuel (every match consumes at
least two units, so `s.length` rounds suffice; the zero-fuel fallback keeps
the function total and is never reached from `splitParagraphs`). -/
def paraGo : Nat → JStr → List JStr → JStr → List JStr
  | 0, cur, acc, rem => acc ++ [cur ++ rem]
  | _ + 1, cur, acc, [] => acc ++ [cur]
  | fuel + 1, cur, acc, c :: rest =>
    if c = 0xA then
      match paraMatchLen (c :: rest) with
      | some mlen => paraGo fuel [] (acc ++ [cur]) ((c :: rest).drop mlen)
      | none => paraGo fuel (cur ++ [c]) acc rest
    else paraGo fuel (cur ++ [c]) acc rest

def splitParagraphs (s : JStr) : List JStr := paraGo s.length [] [] s

/-- One step of the greedy sentence accumulation: the state is
`(chunks so far, currentChunk)`. -/
def chunkStep (maxLen : Nat) (st : List JStr × JStr) (sentence : JStr) :
    List JStr × JStr :=
  if st.2.length + sentence.length + 1 ≤ maxLen then
    (st.1, if st.2.isEmpty then sentence else st.2 ++ 0x20 :: sentence)
  else
    (if st.2.isEmpty then st.1 else st.1 ++ [trimJS st.2], sentence)

/-- The per-paragraph greedy loop, including the final flush. -/
def paraChunks (maxLen : Nat) (sentences : List JStr) : List JStr :=
  let st := sentences.foldl (chunkStep maxLen) ([], [])
  st.1 ++ if st.2.isEmpty then [] else [trimJS st.2]

/-- `chunkText(text, maxLen)` (the body after the `typeof` guard). -/
def chunkText (text : JStr) (maxLen : Nat) : List JStr :=
  let paragraphs := (splitParagraphs (trimJS text)).filter (fun p => !(trimJS p).isEmpty)
  paragraphs.foldl (fun chunks para =>
    let pt := trimJS para
    if pt.isEmpty then chunks
    else chunks ++ paraChunks maxLen (splitSentences pt)) []

/-- `maxLen = 300`, the default parameter. -/
def chunkTextDefaultMaxLen : Nat := 300

/-- A JavaScript value as seen by `typeof`: a string, or anything else
(carrying its `typeof` name). -/
inductive JSVal where
  | str (s : JStr)
  | nonString (typeName : String)

/-- `chunkText` including its `typeof text !== 'string'` guard, which throws
for every non-string argument. -/
def chunkTextJS (v : JSVal) (maxLen : Nat) : Except String (List JStr) :=
  match v with
  | .str s => .ok (chunkText s maxLen)
  | .nonString t => .error ("chunkText expects a string, got " ++ t)

/-! ### `UnicodeProcessor` -/

/-- `String.prototype.codePointAt(j)` for an index known to be in range:
a high surrogate followed by a low surrogate decodes to the supplementary
code point, anything else (including a lone surrogate, and the second unit
of a pair) is its own unit value. -/
def codePointAt (s : JStr) (j : Nat) : Nat :=
  let u := s.getD j 0
  if isHighSurrogate u && isLowSurrogate (s.getD (j + 1) 0) then
    combineSurrogates u (s.getD (j + 1) 0)
  else u

/-- `Math.max(...lengths)`; the worker only applies it to non-empty lists. -/
def listMaxNat : List Nat → Nat
  | [] => 0
  | a :: r => r.foldl max a

/-- `lengthToMask(lengths, maxLen)`: one row per item, shaped `1 × maxLen`,
with `min(len, maxLen)` ones then zeros. A passed `maxLen` of `0` is falsy
in `maxLen || Math.max(...lengths)` and falls back to the list maximum, as
does `null` (modelled by `none`). -/
def lengthToMask (lengths : List Nat) (maxLen : Option Nat) : List (List (List ℚ)) :=
  let actualMaxLen :=
    match maxLen with
    | some m => if m = 0 then listMaxNat lengths else m
    | none => listMaxNat lengths
  lengths.map (fun len =>
    [(List.range actualMaxLen).map (fun j => if j < min len actualMaxLen then (1 : ℚ) else 0)])

/-- The result of `UnicodeProcessor.call`. -/
structure TokenBatch where
  textIds : List (List Int)
  textMask : List (List (List ℚ))
deriving DecidableEq

/-- `UnicodeProcessor.call(textList)`: preprocess each string, measure its
`.length` (UTF-16 code units), pad id rows with 0 to the batch maximum, map
each position through the indexer at `codePointAt(j)`, with out-of-range
code points mapped to -1. -/
def uCall (nfkd : JStr → JStr) (indexer : List Int) (textList : List JStr) : TokenBatch :=
  let processedTexts := textList.map (preprocessText nfkd)
  let textIdsLengths := processedTexts.map List.length
  let maxLen := listMaxNat textIdsLengths
  let textIds := processedTexts.map (fun t =>
    (List.range maxLen).map (fun j =>
      if j < t.length then
        let cp := codePointAt t j
        if cp < indexer.length then indexer.getD cp 0 else -1
      else 0))
  let textMask := lengthToMask textIdsLengths (some maxLen)
  { textIds := textIds, textMask := textMask }

/-- The number of Unicode code points of a UTF-16 unit sequence (surrogate
pairs count once). -/
def codePointCount : JStr → Nat
  | [] => 0
  | [_] => 1
  | a :: b :: rest =>
    if isHighSurrogate a && isLowSurrogate b then 1 + codePointCount rest
    else 1 + codePointCount (b :: rest)

/-! ### `writeWavFile` -/

/-- `DataView.setUint16(…, true)`: two little-endian bytes (wrapping mod 2^16). -/
def u16le (n : Nat) : List Nat := [n % 256, n / 256 % 256]

/-- `DataView.setUint32(…, true)`: four little-endian bytes (wrapping mod 2^32). -/
def u32le (n : Nat) : List Nat :=
  [n % 256, n / 256 % 256, n / 65536 % 256, n / 16777216 % 256]

/-- `Math.max(-1.0, Math.min(1.0, x))`. -/
def clampQ (x : ℚ) : ℚ := max (-1) (min 1 x)

/-- `Math.floor(clamped * 32767)`. -/
def wavSampleInt (x : ℚ) : Int := ⌊clampQ x * 32767⌋

/-- An `Int16Array` element's two little-endian bytes (two's complement). -/
def i16le (v : Int) : List Nat :=
  let m := (v % 65536).toNat
  [m % 256, m / 256]

/-- `writeWavFile(audioData, sampleRate)`: the 44-byte RIFF/WAVE header
followed by the 16-bit samples. -/
def writeWavFile (audioData : List ℚ) (sampleRate : Nat) : List Nat :=
  let numChannels := 1
  let bitsPerSample := 16
  let byteRate := sampleRate * numChannels * bitsPerSample / 8
  let blockAlign := numChannels * bitsPerSample / 8
  let dataSize := audioData.length * 2
  ascii "RIFF" ++ u32le (36 + dataSize) ++ ascii "WAVE" ++ ascii "fmt " ++
  u32le 16 ++ u16le 1 ++ u16le numChannels ++ u32le sampleRate ++
  u32le byteRate ++ u16le blockAlign ++ u16le bitsPerSample ++ ascii "data" ++
  u32le dataSize ++ (audioData.map (fun x => i16le (wavSampleInt x))).flatten

/-- Little-endian 16-bit read, for stating the header round-trip. -/
def readU16le (bytes : List Nat) (off : Nat) : Nat :=
  bytes.getD off 0 + 256 * bytes.getD (off + 1) 0

/-- Little-endian 32-bit read. -/
def readU32le (bytes : List Nat) (off : Nat) : Nat :=
  bytes.getD off 0 + 256 * bytes.getD (off + 1) 0 +
  65536 * bytes.getD (off + 2) 0 + 16777216 * bytes.getD (off + 3) 0

/-- Little-endian signed 16-bit read (two's complement). -/
def readI16le (bytes : List Nat) (off : Nat) : Int :=
  let m := readU16le bytes off
  if m < 32768 then (m : Int) else (m : Int) - 65536

/-- Truncation toward zero of a rational, the "truncates to an integer" of
the specification (stated for comparison with the code's `Math.floor`). -/
def ratTrunc (q : ℚ) : Int := if 0 ≤ q then ⌊q⌋ else -⌊-q⌋

/-! ### `TextToSpeechWorker.sampleNoisyLatent`

The worker draws every latent entry with the Box-Muller transform from
`Math.random()`; we model the random source as a stream `rand : Nat → ℝ`,
consumed two values per entry in the worker's fill order. Durations are
rationals ("float" arithmetic carried exactly); the transcendental noise
values live in `ℝ`. The worker only ever passes nonnegative durations
(a negative waveform length would make `new Float32Array` throw), so the
`Int.toNat` after each `Math.floor` below is exact on the worker's inputs. -/

abbrev Latent := List (List (List ℝ))

/-- `Math.max(...duration)` (the worker applies it to non-empty lists only). -/
def listMaxQ : List ℚ → ℚ
  | [] => 0
  | a :: r => r.foldl max a

/-- One Box-Muller draw: `u1 = Math.max(0.0001, Math.random())`,
`u2 = Math.random()`, value `sqrt(-2 ln u1) · cos(2π u2)`. `k` is the linear
index of the entry being filled. -/
noncomputable def boxMuller (rand : Nat → ℝ) (k : Nat) : ℝ :=
  let u1 := max (1 / 10000) (rand (2 * k))
  let u2 := rand (2 * k + 1)
  Real.sqrt (-2 * Real.log u1) * Real.cos (2 * Real.pi * u2)

structure LatentSample where
  xt : Latent
  latentMask : List (List (List ℚ))

/-- `TextToSpeechWorker.sampleNoisyLatent`: fill a
`bsz × (latentDim·chunkCompress) × latentLen` tensor with Gaussian noise,
then zero every position past each item's own valid latent length by
multiplying with the mask. -/
noncomputable def sampleNoisyLatent (rand : Nat → ℝ) (duration : List ℚ)
    (sampleRate : ℚ) (baseChunkSize chunkCompress latentDim : Nat) : LatentSample :=
  let bsz := duration.length
  let maxDur := listMaxQ duration
  let wavLenMax : Nat := (⌊maxDur * sampleRate⌋).toNat
  let wavLengths : List Nat := duration.map (fun d => (⌊d * sampleRate⌋).toNat)
  let chunkSize := baseChunkSize * chunkCompress
  let latentLen := (wavLenMax + chunkSize - 1) / chunkSize
  let latentDimVal := latentDim * chunkCompress
  let latentLengths := wavLengths.map (fun len => (len + chunkSize - 1) / chunkSize)
  let latentMask := lengthToMask latentLengths (some latentLen)
  let noise := fun b d t => boxMuller rand ((b * latentDimVal + d) * latentLen + t)
  let xt := (List.range bsz).map (fun b =>
    (List.range latentDimVal).map (fun d =>
      (List.range latentLen).map (fun t =>
        noise b d t * ((((latentMask.getD b []).getD 0 []).getD t 0 : ℚ) : ℝ))))
  { xt := xt, latentMask := latentMask }

/-! ### The denoising loop of `TextToSpeechWorker._infer` -/

/-- What the loop body does, in order: report progress, then call the vector
estimator (whose output replaces the latent). -/
inductive DenoiseEvent where
  | progress (step total : Nat)
  | estimatorCall (currentStep : Nat)
deriving DecidableEq

/-- `for (let step = 0; step < totalStep; step++) { progress(step+1, totalStep);
xt := est(xt, step) }`, also recording the trace of what happened. Structurally
recursive on fuel, started at `totalStep` so the loop always completes. -/
def denoiseGo {L : Type} (est : L → Nat → L) (totalStep : Nat) :
    Nat → Nat → L → L × List DenoiseEvent
  | 0, _, x => (x, [])
  | fuel + 1, step, x =>
    if step < totalStep then
      let r := denoiseGo est totalStep fuel (step + 1) (est x step)
      (r.1, .progress (step + 1) totalStep :: .estimatorCall step :: r.2)
    else (x, [])

def denoiseLoop {L : Type} (est : L → Nat → L) (totalStep : Nat) (x0 : L) :
    L × List DenoiseEvent :=
  denoiseGo est totalStep totalStep 0 x0

/-- The `(step, totalStep)` arguments of the progress callback invocations,
in order. -/
def progressPairs (evts : List DenoiseEvent) : List (Nat × Nat) :=
  evts.filterMap (fun e =>
    match e with
    | .progress s t => some (s, t)
    | _ => none)

/-! ### `TextToSpeechWorker._infer` and `call`

The four ONNX sessions are the external inference engine: opaque functions
over the tensors the worker hands them (the style tensors are captured inside
the closures; `TE` is the text-embedding type). -/

structure Engine (TE : Type) where
  predictDuration : List (List Int) → List (List (List ℚ)) → List ℚ
  encodeText : List (List Int) → List (List (List ℚ)) → TE
  estimateVector : Latent → TE → List (List (List ℚ)) → List (List (List ℚ)) → Nat → Nat → Latent
  vocode : Latent → List ℝ

structure Cfgs where
  sample_rate : ℚ
  base_chunk_size : Nat
  chunk_compress_factor : Nat
  latent_dim : Nat

/-- The shape information of a loaded voice style that `call` validates. -/
structure VoiceStyle where
  ttlDims : List Nat

/-- `speed = 1.05`, the default parameter of `_infer` and `call`. -/
def defaultSpeed : ℚ := 1.05

/-- `silenceDuration = 0.3`, the default parameter of `call`. -/
def defaultSilenceDuration : ℚ := 0.3

structure InferResult (TE : Type) where
  wav : List ℝ
  duration : List ℚ
  events : List (Nat × Nat)
  sampled : LatentSample
  finalLatent : Latent

/-- `TextToSpeechWorker._infer`: encode the batch, predict durations, divide
each duration by `speed`, sample the noisy latent from the divided durations,
run the denoising loop, vocode. `events` records the progress-callback
invocations. -/
noncomputable def inferModel {TE : Type} (E : Engine TE) (cfgs : Cfgs)
    (nfkd : JStr → JStr) (indexer : List Int) (rand : Nat → ℝ)
    (textList : List JStr) (totalStep : Nat) (speed : ℚ) : InferResult TE :=
  let tb := uCall nfkd indexer textList
  let rawDuration := E.predictDuration tb.textIds tb.textMask
  let duration := rawDuration.map (fun d => d / speed)
  let textEmb := E.encodeText tb.textIds tb.textMask
  let sampled := sampleNoisyLatent rand duration cfgs.sample_rate
    cfgs.base_chunk_size cfgs.chunk_compress_factor cfgs.latent_dim
  let loop := denoiseLoop
    (fun x s => E.estimateVector x textEmb sampled.latentMask tb.textMask s totalStep)
    totalStep sampled.xt
  { wav := E.vocode loop.1
    duration := duration
    events := progressPairs loop.2
    sampled := sampled
    finalLatent := loop.1 }

/-- One denoising progress event as reported to `call`'s caller. -/
structure ProgressEvent where
  step : Nat
  total : Nat
  chunkIndex : Nat
  totalChunks : Nat
  overallProgress : ℚ
deriving DecidableEq

structure CallResult where
  wav : List ℝ
  duration : List ℚ
  events : List ProgressEvent

/-- `throw new Error('Single speaker text to speech only supports single style')`. -/
inductive CallError where
  | singleStyle
deriving DecidableEq

structure CallState where
  processed : Nat
  wavCat : Option (List ℝ)
  durCat : ℚ
  events : List ProgressEvent

/-- The body of `call`'s `for (const chunk of textList)` loop: run `_infer`
on the single-chunk batch with the progress closure
`overall = processedChunks/totalChunks + step/total/totalChunks` (reporting
`chunkIndex = processedChunks + 1`), then concatenate the waveform — as-is
for the first chunk, after `floor(silenceDuration · sampleRate)` zero samples
for every later one — and accumulate the duration. -/
noncomputable def callChunkStep {TE : Type} (E : Engine TE) (cfgs : Cfgs)
    (nfkd : JStr → JStr) (indexer : List Int) (rand : Nat → ℝ)
    (totalStep : Nat) (speed silenceDuration : ℚ) (totalChunks : Nat)
    (st : CallState) (chunk : JStr) : CallState :=
  let res := inferModel E cfgs nfkd indexer rand [chunk] totalStep speed
  let evts := res.events.map (fun p =>
    { step := p.1, total := p.2, chunkIndex := st.processed + 1,
      totalChunks := totalChunks,
      overallProgress := (st.processed : ℚ) / totalChunks +
        (p.1 : ℚ) / p.2 / totalChunks : ProgressEvent })
  let dur0 := res.duration.headD 0
  match st.wavCat with
  | none =>
    { processed := st.processed + 1, wavCat := some res.wav,
      durCat := dur0, events := st.events ++ evts }
  | some w =>
    let silenceLen := (⌊silenceDuration * cfgs.sample_rate⌋).toNat
    { processed := st.processed + 1,
      wavCat := some (w ++ List.replicate silenceLen 0 ++ res.wav),
      durCat := st.durCat + dur0 + silenceDuration,
      events := st.events ++ evts }

/-- `TextToSpeechWorker.call`: validate the style's leading dimension, chunk
the text (default `maxLen` 300), and fold `callChunkStep` over the chunks. -/
noncomputable def callModel {TE : Type} (E : Engine TE) (cfgs : Cfgs)
    (nfkd : JStr → JStr) (indexer : List Int) (rand : Nat → ℝ)
    (style : VoiceStyle) (text : JStr) (totalStep : Nat)
    (speed silenceDuration : ℚ) : Except CallError CallResult :=
  if style.ttlDims.headD 0 ≠ 1 then .error .singleStyle
  else
    let textList := chunkText text chunkTextDefaultMaxLen
    let st := textList.foldl
      (callChunkStep E cfgs nfkd indexer rand totalStep speed silenceDuration textList.length)
      { processed := 0, wavCat := none, durCat := 0, events := [] }
    .ok { wav := st.wavCat.getD [], duration := [st.durCat], events := st.events }

/-! ## Helper lemmas: the denoising loop -/

theorem denoiseGo_eq {L : Type} (est : L → Nat → L) (N : Nat) :
    ∀ fuel step x, N - step ≤ fuel →
      denoiseGo est N fuel step x =
        ((List.range' step (N - step)).foldl est x,
         (List.range' step (N - step)).flatMap
           (fun s => [.progress (s + 1) N, .estimatorCall s])) := by
  intro fuel
  induction fuel with
  | zero =>
    intro step x h
    have h0 : N - step = 0 := Nat.le_zero.mp h
    simp [denoiseGo, h0]
  | succ fuel ih =>
    intro step x h
    by_cases hlt : step < N
    · have hk : N - step = (N - (step + 1)) + 1 := by omega
      have hr : List.range' step (N - step) = step :: List.range' (step + 1) (N - (step + 1)) := by
        rw [hk, List.range'_succ]
      rw [denoiseGo, if_pos hlt, ih (step + 1) (est x step) (by omega), hr]
      simp
    · have h0 : N - step = 0 := by omega
      rw [denoiseGo, if_neg hlt]
      simp [h0]

theorem denoiseLoop_eq {L : Type} (est : L → Nat → L) (N : Nat) (x0 : L) :
    denoiseLoop est N x0 =
      ((List.range N).foldl est x0,
       (List.range N).flatMap (fun s => [.progress (s + 1) N, .estimatorCall s])) := by
  rw [denoiseLoop, denoiseGo_eq est N N 0 x0 (by omega), List.range_eq_range', Nat.sub_zero]

theorem progressPairs_bind (N : Nat) (l : List Nat) :
    progressPairs (l.flatMap (fun s => [.progress (s + 1) N, .estimatorCall s])) =
      l.map (fun s => (s + 1, N)) := by
  induction l with
  | nil => rfl
  | cons a l ih =>
    simp only [List.flatMap_cons, List.map_cons, progressPairs, List.filterMap_append] at *
    rw [ih]
    rfl

theorem denoiseLoop_progressPairs {L : Type} (est : L → Nat → L) (N : Nat) (x0 : L) :
    progressPairs (denoiseLoop est N x0).2 = (List.range N).map (fun s => (s + 1, N)) := by
  rw [denoiseLoop_eq]
  exact progressPairs_bind N (List.range N)

/-- C6: during one chunk's denoising run with total step count `N`, the vector
estimator is invoked exactly `N` times, at `current_step = 0, 1, …, N-1` in
increasing order with no repeats or gaps; the progress callback fires before
each step with the 1-based step index and `N`; and after each invocation the
latent is wholly replaced by the estimator's output, so the final latent is
the `N`-fold iterated application of the estimator starting from the sampled
noise. -/
theorem denoise_loop_steps_and_replacement {L : Type} (est : L → Nat → L)
    (N : Nat) (x0 : L) :
    (denoiseLoop est N x0).2 =
      (List.range N).flatMap (fun s => [.progress (s + 1) N, .estimatorCall s]) ∧
    (denoiseLoop est N x0).1 = (List.range N).foldl est x0 := by
  rw [denoiseLoop_eq]
  exact ⟨rfl, rfl⟩

/-! ## Helper lemmas: the WAV container -/

theorem clampQ_mem (x : ℚ) : -1 ≤ clampQ x ∧ clampQ x ≤ 1 := by
  unfold clampQ
  constructor
  · exact le_max_left _ _
  · exact max_le (by norm_num) (min_le_left _ _)

theorem wavSampleInt_bounds (x : ℚ) :
    -32767 ≤ wavSampleInt x ∧ wavSampleInt x ≤ 32767 := by
  obtain ⟨h1, h2⟩ := clampQ_mem x
  unfold wavSampleInt
  constructor
  · have : (-32767 : ℚ) ≤ clampQ x * 32767 := by nlinarith
    exact_mod_cast Int.le_floor.mpr (by exact_mod_cast this)
  · have : clampQ x * 32767 ≤ (32767 : ℚ) := by nlinarith
    calc ⌊clampQ x * 32767⌋ ≤ ⌊(32767 : ℚ)⌋ := Int.floor_le_floor this
    _ = 32767 := by norm_num

theorem i16le_roundtrip (v : Int) (hlo : -32768 ≤ v) (hhi : v < 32768) :
    readI16le (i16le v) 0 = v := by
  unfold readI16le i16le readU16le
  have hm : (0 : Int) ≤ v % 65536 := Int.emod_nonneg v (by norm_num)
  have hm2 : v % 65536 < 65536 := Int.emod_lt_of_pos v (by norm_num)
  simp only [List.getD_cons_zero, List.getD_cons_succ]
  omega

theorem wavData_read (audio : List ℚ) :
    ∀ i, i < audio.length →
      readI16le ((audio.map (fun x => i16le (wavSampleInt x))).flatten) (2 * i) =
        wavSampleInt (audio.getD i 0) := by
  induction audio with
  | nil => intro i h; simp at h
  | cons a rest ih =>
    intro i h
    cases i with
    | zero =>
      obtain ⟨hlo, hhi⟩ := wavSampleInt_bounds a
      have hrt := i16le_roundtrip (wavSampleInt a) (by omega) (by omega)
      unfold readI16le readU16le at hrt ⊢
      simp only [List.map_cons, List.flatten_cons, i16le, List.cons_append,
        List.getD_cons_zero, List.getD_cons_succ, Nat.mul_zero, Nat.zero_add,
        List.getD_cons_zero] at hrt ⊢
      exact hrt
    | succ i =>
      have h2 : i < rest.length := by simpa using Nat.lt_of_succ_lt_succ h
      have ihx := ih i h2
      have hidx : 2 * (i + 1) = 2 * i + 1 + 1 := by ring
      unfold readI16le readU16le at ihx ⊢
      simp only [List.map_cons, List.flatten_cons, i16le, List.cons_append, hidx,
        List.getD_cons_succ, List.getD_cons_zero] at ihx ⊢
      simpa using ihx

theorem wavHeader_length (audio : List ℚ) (rate : Nat) :
    ∃ data, writeWavFile audio rate =
      (ascii "RIFF" ++ u32le (36 + audio.length * 2) ++ ascii "WAVE" ++ ascii "fmt " ++
       u32le 16 ++ u16le 1 ++ u16le 1 ++ u32le rate ++ u32le (rate * 1 * 16 / 8) ++
       u16le (1 * 16 / 8) ++ u16le 16 ++ ascii "data" ++ u32le (audio.length * 2)) ++ data ∧
      data = (audio.map (fun x => i16le (wavSampleInt x))).flatten := by
  refine ⟨_, ?_, rfl⟩
  simp [writeWavFile, List.append_assoc]

theorem writeWav_data_read (audio : List ℚ) (rate : Nat) (i : Nat) (h : i < audio.length) :
    readI16le (writeWavFile audio rate) (44 + 2 * i) = wavSampleInt (audio.getD i 0) := by
  obtain ⟨data, hw, hdata⟩ := wavHeader_length audio rate
  have hlen : (ascii "RIFF" ++ u32le (36 + audio.length * 2) ++ ascii "WAVE" ++ ascii "fmt " ++
      u32le 16 ++ u16le 1 ++ u16le 1 ++ u32le rate ++ u32le (rate * 1 * 16 / 8) ++
      u16le (1 * 16 / 8) ++ u16le 16 ++ ascii "data" ++ u32le (audio.length * 2)).length = 44 := by
    simp [ascii, u32le, u16le]
  rw [hw]
  unfold readI16le readU16le
  rw [List.getD_append_right _ _ _ _ (by omega), List.getD_append_right _ _ _ _ (by omega),
    hlen, hdata]
  have := wavData_read audio i h
  unfold readI16le readU16le at this
  have h1 : 44 + 2 * i - 44 = 2 * i := by omega
  have h2 : 44 + 2 * i + 1 - 44 = 2 * i + 1 := by omega
  rw [h1, h2]
  exact this

theorem wavHeader_fields (audio : List ℚ) (rate : Nat)
    (hrate : rate * 2 < 4294967296) (hlen2 : audio.length * 2 < 4294967296) :
    readU16le (writeWavFile audio rate) 22 = 1 ∧
    readU32le (writeWavFile audio rate) 24 = rate ∧
    readU32le (writeWavFile audio rate) 28 = rate * 2 ∧
    readU16le (writeWavFile audio rate) 32 = 2 ∧
    readU16le (writeWavFile audio rate) 34 = 16 ∧
    readU32le (writeWavFile audio rate) 40 = audio.length * 2 := by
  have hR : ascii "RIFF" = [82, 73, 70, 70] := by decide
  have hW : ascii "WAVE" = [87, 65, 86, 69] := by decide
  have hF : ascii "fmt " = [102, 109, 116, 32] := by decide
  have hD : ascii "data" = [100, 97, 116, 97] := by decide
  refine ⟨?_, ?_, ?_, ?_, ?_, ?_⟩ <;>
    (simp only [writeWavFile, hR, hW, hF, hD, u16le, u32le, List.cons_append,
        List.nil_append, readU16le, readU32le, List.getD_cons_succ, List.getD_cons_zero]
     try omega)

/-- C7 (counterexample): the claim says the scaled sample is truncated to an
integer, but the code applies `Math.floor`: at sample −0.5 the encoder stores
−16384 while truncation of −16383.5 gives −16383. -/
theorem wav_truncation_counterexample :
    readI16le (writeWavFile [-(1 : ℚ)/2] 8000) 44 = -16384 ∧
    ratTrunc (clampQ (-(1 : ℚ)/2) * 32767) = -16383 := by
  constructor
  · have h := writeWav_data_read [-(1 : ℚ)/2] 8000 0 (by simp)
    simp only [Nat.mul_zero, Nat.add_zero, List.getD_cons_zero] at h
    rw [h]
    norm_num [wavSampleInt, clampQ]
  · norm_num [ratTrunc, clampQ]

/-- C7 (amended): the WAV encoder clamps each sample to [-1,1], scales it by
32767 and applies `Math.floor` (round toward −∞ — not truncation, which
differs on negative non-integers); an input of 1.0 maps to sample 32767 and
−1.0 to −32767; the header encodes the supplied sample rate, channel count 1,
bit depth 16, byte rate 2·sampleRate, block alignment 2, and a data size of
2 bytes per sample. -/
theorem wav_encoder_spec (audio : List ℚ) (rate : Nat)
    (hrate : rate * 2 < 4294967296) (hlen2 : audio.length * 2 < 4294967296) :
    (∀ i, i < audio.length →
      readI16le (writeWavFile audio rate) (44 + 2 * i) =
        ⌊clampQ (audio.getD i 0) * 32767⌋) ∧
    wavSampleInt 1 = 32767 ∧ wavSampleInt (-1) = -32767 ∧
    readU16le (writeWavFile audio rate) 22 = 1 ∧
    readU32le (writeWavFile audio rate) 24 = rate ∧
    readU32le (writeWavFile audio rate) 28 = rate * 2 ∧
    readU16le (writeWavFile audio rate) 32 = 2 ∧
    readU16le (writeWavFile audio rate) 34 = 16 ∧
    readU32le (writeWavFile audio rate) 40 = audio.length * 2 := by
  obtain ⟨h22, h24, h28, h32, h34, h40⟩ := wavHeader_fields audio rate hrate hlen2
  refine ⟨fun i hi => writeWav_data_read audio rate i hi, ?_, ?_, h22, h24, h28, h32, h34, h40⟩
  · norm_num [wavSampleInt, clampQ]
  · norm_num [wavSampleInt, clampQ]

theorem wav_encoder_spec_witness :
    (∀ i, i < ([1, -1] : List ℚ).length →
      readI16le (writeWavFile [1, -1] 8000) (44 + 2 * i) =
        ⌊clampQ (([1, -1] : List ℚ).getD i 0) * 32767⌋) ∧
    wavSampleInt 1 = 32767 ∧ wavSampleInt (-1) = -32767 ∧
    readU16le (writeWavFile [1, -1] 8000) 22 = 1 ∧
    readU32le (writeWavFile [1, -1] 8000) 24 = 8000 ∧
    readU32le (writeWavFile [1, -1] 8000) 28 = 8000 * 2 ∧
    readU16le (writeWavFile [1, -1] 8000) 32 = 2 ∧
    readU16le (writeWavFile [1, -1] 8000) 34 = 16 ∧
    readU32le (writeWavFile [1, -1] 8000) 40 = ([1, -1] : List ℚ).length * 2 :=
  wav_encoder_spec [1, -1] 8000 (by norm_num) (by norm_num)

/-! ## Helper lemmas: list access and maxima -/

theorem getD_range_map {α : Type} (n : Nat) (f : Nat → α) (d : α) (j : Nat) :
    ((List.range n).map f).getD j d = if j < n then f j else d := by
  by_cases h : j < n
  · rw [if_pos h, List.getD_eq_getElem _ _ (by simpa using h), List.getElem_map,
      List.getElem_range]
  · rw [if_neg h, List.getD_eq_default]
    simpa using Nat.le_of_not_lt h

theorem getD_map_lt {α β : Type} (f : α → β) (l : List α) (b : Nat)
    (hb : b < l.length) (d : β) (d' : α) :
    (l.map f).getD b d = f (l.getD b d') := by
  rw [List.getD_eq_getElem _ _ (by simpa using hb), List.getElem_map,
    List.getD_eq_getElem _ _ hb]

theorem le_foldl_max (r : List Nat) : ∀ a : Nat, a ≤ r.foldl max a := by
  induction r with
  | nil => intro a; exact le_refl a
  | cons b r ih => intro a; exact le_trans (le_max_left a b) (ih (max a b))

theorem mem_le_foldl_max (r : List Nat) : ∀ a x, x ∈ r → x ≤ r.foldl max a := by
  induction r with
  | nil => intro a x hx; simp at hx
  | cons b r ih =>
    intro a x hx
    rcases List.mem_cons.mp hx with h | h
    · subst h; exact le_trans (le_max_right a x) (le_foldl_max r _)
    · exact ih _ x h

theorem le_listMaxNat {l : List Nat} {x : Nat} (hx : x ∈ l) : x ≤ listMaxNat l := by
  cases l with
  | nil => simp at hx
  | cons a r =>
    rcases List.mem_cons.mp hx with h | h
    · subst h; exact le_foldl_max r x
    · exact mem_le_foldl_max r a x h

theorem range_map_if_lt {α : Type} (m k : Nat) (hk : k ≤ m) (a b : α) :
    (List.range m).map (fun j => if j < k then a else b) =
      List.replicate k a ++ List.replicate (m - k) b := by
  apply List.ext_getElem
  · simp; omega
  · intro j h1 h2
    simp only [List.getElem_map, List.getElem_range]
    by_cases hj : j < k
    · rw [if_pos hj, List.getElem_append_left (by simpa using hj), List.getElem_replicate]
    · rw [if_neg hj, List.getElem_append_right (by simpa using Nat.le_of_not_lt hj),
        List.getElem_replicate]

/-! ## C4: the token encoder -/

/-- C4 (counterexample): `UnicodeProcessor.call` measures strings with
`String.prototype.length`, which counts UTF-16 code units, not Unicode code
points. For the single-character input U+1D11E (𝄞, one code point encoded as
the surrogate pair D834 DD1E), the processed text "𝄞." has 2 code points but
3 code units, and the mask row carries 3 ones — not 2 ones followed by zeros
as the claim's code-point length L would require. -/
theorem uCall_codepoint_counterexample :
    codePointCount (preprocessText (fun s => s) [0xD834, 0xDD1E]) = 2 ∧
    (uCall (fun s => s) [] [[0xD834, 0xDD1E]]).textMask = [[[1, 1, 1]]] ∧
    ([[[(1 : ℚ), 1, 1]]] : List (List (List ℚ))) ≠ [[[1, 1]]] := by
  refine ⟨by decide, by decide, by decide⟩

/-- C4 (amended): the token encoder computes each processed string's length in
UTF-16 code units, pads every id row with 0 to the batch maximum of those
lengths, sets position `j` of a row to the lookup table at index
`codePointAt(j)` when that code point is in range and to -1 otherwise, and
gives each string's mask row exactly `L` entries 1.0 followed by 0.0 entries,
where `L` is its length in code units. -/
theorem uCall_encoding (nfkd : JStr → JStr) (indexer : List Int) (texts : List JStr) :
    (uCall nfkd indexer texts).textIds.length = texts.length ∧
    (∀ b, b < texts.length →
      ((uCall nfkd indexer texts).textIds.getD b []).length =
        listMaxNat ((texts.map (preprocessText nfkd)).map List.length)) ∧
    (∀ b j, b < texts.length →
      j < listMaxNat ((texts.map (preprocessText nfkd)).map List.length) →
      ((uCall nfkd indexer texts).textIds.getD b []).getD j 0 =
        (if j < ((texts.map (preprocessText nfkd)).getD b []).length then
          (if codePointAt ((texts.map (preprocessText nfkd)).getD b []) j < indexer.length then
            indexer.getD (codePointAt ((texts.map (preprocessText nfkd)).getD b []) j) 0
          else -1)
        else 0)) ∧
    (∀ b, b < texts.length →
      (uCall nfkd indexer texts).textMask.getD b [] =
        [List.replicate ((texts.map (preprocessText nfkd)).getD b []).length (1 : ℚ) ++
         List.replicate
           (listMaxNat ((texts.map (preprocessText nfkd)).map List.length) -
             ((texts.map (preprocessText nfkd)).getD b []).length) 0]) := by
  have hlenp : (texts.map (preprocessText nfkd)).length = texts.length := List.length_map _ _
  refine ⟨?_, ?_, ?_, ?_⟩
  · simp [uCall]
  · intro b hb
    unfold uCall
    rw [getD_map_lt _ _ b (by simpa [hlenp] using hb) [] []]
    simp
  · intro b j hb hj
    unfold uCall
    rw [getD_map_lt _ _ b (by simpa [hlenp] using hb) [] [], getD_range_map, if_pos hj]
  · intro b hb
    have hbl : b < (texts.map (preprocessText nfkd)).length := by simpa [hlenp] using hb
    have hbl2 : b < ((texts.map (preprocessText nfkd)).map List.length).length := by
      simpa using hbl
    have hLb : ((texts.map (preprocessText nfkd)).map List.length).getD b 0 =
        ((texts.map (preprocessText nfkd)).getD b []).length :=
      getD_map_lt List.length _ b hbl 0 []
    have hmem : ((texts.map (preprocessText nfkd)).map List.length).getD b 0 ∈
        (texts.map (preprocessText nfkd)).map List.length := by
      rw [List.getD_eq_getElem _ _ hbl2]
      exact List.getElem_mem _
    have hle : ((texts.map (preprocessText nfkd)).getD b []).length ≤
        listMaxNat ((texts.map (preprocessText nfkd)).map List.length) := by
      rw [← hLb]; exact le_listMaxNat hmem
    have hmin : min ((texts.map (preprocessText nfkd)).getD b []).length
        (listMaxNat ((texts.map (preprocessText nfkd)).map List.length)) =
        ((texts.map (preprocessText nfkd)).getD b []).length := min_eq_left hle
    unfold uCall lengthToMask
    simp only [ite_self]
    rw [getD_map_lt _ _ b hbl2 [] 0, hLb]
    rw [hmin, range_map_if_lt _ _ hle]

/-! ## C9: input validation -/

/-- C9: a voice style whose leading `style_ttl` dimension is not 1 makes
`call` throw at once — for every engine, configuration, text, and parameter
set, the result is the `singleStyle` error, before any chunking or
inference-engine call could matter — and `chunkText` throws a type error on
every non-string argument. -/
theorem input_validation {TE : Type} (E : Engine TE) (cfgs : Cfgs)
    (nfkd : JStr → JStr) (indexer : List Int) (rand : Nat → ℝ)
    (style : VoiceStyle) (text : JStr) (totalStep : Nat) (speed silence : ℚ)
    (hstyle : style.ttlDims.headD 0 ≠ 1) :
    callModel E cfgs nfkd indexer rand style text totalStep speed silence =
      .error .singleStyle ∧
    (∀ (t : String) (maxLen : Nat),
      chunkTextJS (.nonString t) maxLen =
        .error ("chunkText expects a string, got " ++ t)) := by
  constructor
  · unfold callModel
    rw [if_pos hstyle]
  · intro t maxLen
    rfl

/-- An inference engine for witnesses: one unit duration, identity estimator,
empty waveform. -/
def trivialEngine : Engine Unit :=
  { predictDuration := fun _ _ => [1]
    encodeText := fun _ _ => ()
    estimateVector := fun x _ _ _ _ _ => x
    vocode := fun _ => [] }

def trivialCfgs : Cfgs := ⟨24000, 512, 4, 24⟩

theorem input_validation_witness :
    callModel trivialEngine trivialCfgs (fun s => s) [] (fun _ => 0)
      { ttlDims := [2] } (ascii "Hi.") 4 1 (3 / 10) = .error .singleStyle ∧
    (∀ (t : String) (maxLen : Nat),
      chunkTextJS (.nonString t) maxLen =
        .error ("chunkText expects a string, got " ++ t)) :=
  input_validation trivialEngine trivialCfgs (fun s => s) [] (fun _ => 0)
    { ttlDims := [2] } (ascii "Hi.") 4 1 (3 / 10) (by decide)

/-! ## Helper lemmas: the `call` fold -/

/-- The per-chunk duration that `call` reads as `duration[0]`. -/
noncomputable def chunkDur {TE : Type} (E : Engine TE) (cfgs : Cfgs)
    (nfkd : JStr → JStr) (indexer : List Int) (rand : Nat → ℝ)
    (totalStep : Nat) (speed : ℚ) (c : JStr) : ℚ :=
  (inferModel E cfgs nfkd indexer rand [c] totalStep speed).duration.headD 0

/-- The events one chunk run reports: steps `1..totalStep`, chunk position
`processed + 1` of `N`, and the code's progress formula. -/
def chunkEvents (totalStep processed N : Nat) : List ProgressEvent :=
  (List.range totalStep).map (fun s =>
    { step := s + 1, total := totalStep, chunkIndex := processed + 1,
      totalChunks := N,
      overallProgress := (processed : ℚ) / N + ((s + 1 : Nat) : ℚ) / (totalStep : ℚ) / N })

theorem inferModel_events {TE : Type} (E : Engine TE) (cfgs : Cfgs)
    (nfkd : JStr → JStr) (indexer : List Int) (rand : Nat → ℝ)
    (textList : List JStr) (totalStep : Nat) (speed : ℚ) :
    (inferModel E cfgs nfkd indexer rand textList totalStep speed).events =
      (List.range totalStep).map (fun s => (s + 1, totalStep)) := by
  unfold inferModel
  exact denoiseLoop_progressPairs _ _ _

theorem callChunkStep_eq {TE : Type} (E : Engine TE) (cfgs : Cfgs)
    (nfkd : JStr → JStr) (indexer : List Int) (rand : Nat → ℝ)
    (totalStep : Nat) (speed silence : ℚ) (N : Nat) (st : CallState) (chunk : JStr) :
    callChunkStep E cfgs nfkd indexer rand totalStep speed silence N st chunk =
      match st.wavCat with
      | none =>
        { processed := st.processed + 1,
          wavCat := some (inferModel E cfgs nfkd indexer rand [chunk] totalStep speed).wav,
          durCat := chunkDur E cfgs nfkd indexer rand totalStep speed chunk,
          events := st.events ++ chunkEvents totalStep st.processed N }
      | some w =>
        { processed := st.processed + 1,
          wavCat := some (w ++
            List.replicate ((⌊silence * cfgs.sample_rate⌋).toNat) 0 ++
            (inferModel E cfgs nfkd indexer rand [chunk] totalStep speed).wav),
          durCat := st.durCat + chunkDur E cfgs nfkd indexer rand totalStep speed chunk + silence,
          events := st.events ++ chunkEvents totalStep st.processed N } := by
  cases hw : st.wavCat <;>
    simp [callChunkStep, chunkDur, hw, inferModel_events, chunkEvents, List.map_map,
      Function.comp]

theorem sum_map_add_const {α : Type} (silence : ℚ) (f : α → ℚ) (l : List α) :
    (l.map (fun c => f c + silence)).sum = (l.map f).sum + l.length * silence := by
  induction l with
  | nil => simp
  | cons a l ih =>
    simp only [List.map_cons, List.sum_cons, ih, List.length_cons]
    push_cast
    ring

theorem callFold_some {TE : Type} (E : Engine TE) (cfgs : Cfgs) (nfkd : JStr → JStr)
    (indexer : List Int) (rand : Nat → ℝ) (totalStep : Nat) (speed silence : ℚ) (N : Nat) :
    ∀ (l : List JStr) (st0 : CallState) (w : List ℝ), st0.wavCat = some w →
      ∃ w', l.foldl (callChunkStep E cfgs nfkd indexer rand totalStep speed silence N) st0 =
        { processed := st0.processed + l.length,
          wavCat := some w',
          durCat := st0.durCat +
            (l.map (fun c => chunkDur E cfgs nfkd indexer rand totalStep speed c + silence)).sum,
          events := st0.events ++
            (List.range' st0.processed l.length).flatMap
              (fun i => chunkEvents totalStep i N) } := by
  intro l
  induction l with
  | nil =>
    intro st0 w hw
    refine ⟨w, ?_⟩
    cases st0
    simp_all
  | cons c l ih =>
    intro st0 w hw
    rw [List.foldl_cons, callChunkStep_eq, hw]
    obtain ⟨w', hw'⟩ := ih
      { processed := st0.processed + 1,
        wavCat := some (w ++ List.replicate ((⌊silence * cfgs.sample_rate⌋).toNat) 0 ++
          (inferModel E cfgs nfkd indexer rand [c] totalStep speed).wav),
        durCat := st0.durCat + chunkDur E cfgs nfkd indexer rand totalStep speed c + silence,
        events := st0.events ++ chunkEvents totalStep st0.processed N } _ rfl
    refine ⟨w', ?_⟩
    rw [hw']
    simp only [List.range'_succ, List.flatMap_cons, List.map_cons, List.sum_cons,
      List.length_cons, List.append_assoc, CallState.mk.injEq]
    refine ⟨by omega, trivial, by ring, trivial⟩

/-- The full result of a valid-style `call`: the duration accumulates the
per-chunk `duration[0]` values plus `(numChunks − 1)` silences, and the event
stream enumerates the chunks in order, each contributing `totalStep` events. -/
theorem callModel_closed {TE : Type} (E : Engine TE) (cfgs : Cfgs) (nfkd : JStr → JStr)
    (indexer : List Int) (rand : Nat → ℝ) (style : VoiceStyle) (text : JStr)
    (totalStep : Nat) (speed silence : ℚ) (hstyle : style.ttlDims.headD 0 = 1) :
    ∃ w, callModel E cfgs nfkd indexer rand style text totalStep speed silence = .ok
      { wav := w,
        duration := [((chunkText text chunkTextDefaultMaxLen).map
            (chunkDur E cfgs nfkd indexer rand totalStep speed)).sum +
          (((chunkText text chunkTextDefaultMaxLen).length - 1 : Nat) : ℚ) * silence],
        events := (List.range' 0 (chunkText text chunkTextDefaultMaxLen).length).flatMap
          (fun i => chunkEvents totalStep i (chunkText text chunkTextDefaultMaxLen).length) } := by
  unfold callModel
  rw [if_neg (not_not_intro hstyle)]
  cases hc : chunkText text chunkTextDefaultMaxLen with
  | nil =>
    refine ⟨[], ?_⟩
    simp
  | cons c l =>
    dsimp only
    rw [List.foldl_cons, callChunkStep_eq]
    dsimp only
    obtain ⟨w', hw'⟩ := callFold_some E cfgs nfkd indexer rand totalStep speed silence
      (c :: l).length l
      { processed := 0 + 1,
        wavCat := some (inferModel E cfgs nfkd indexer rand [c] totalStep speed).wav,
        durCat := chunkDur E cfgs nfkd indexer rand totalStep speed c,
        events := [] ++ chunkEvents totalStep 0 (c :: l).length } _ rfl
    refine ⟨w', ?_⟩
    rw [hw']
    simp only [Option.getD_some, List.nil_append, List.length_cons, Except.ok.injEq,
      CallResult.mk.injEq]
    refine ⟨trivial, ?_, ?_⟩
    · rw [sum_map_add_const, List.map_cons, List.sum_cons]
      have hcast : ((l.length + 1 - 1 : Nat) : ℚ) = (l.length : ℚ) := by push_cast; ring
      rw [hcast]
      ring_nf
    · rw [List.range'_succ, List.flatMap_cons]

/-! ## C2: the progress events of `call` -/

/-- C2 (counterexample): the claim computes the overall progress from the
*reported* chunk index, but the code uses `processedChunks = chunkIndex − 1`.
For a one-chunk text at `totalStep = 1`, the single event reports
`(step, total, chunkIndex, totalChunks) = (1, 1, 1, 1)` with overall progress
`0/1 + 1/1/1 = 1`, whereas the claim's formula
`chunkIndex/totalChunks + step/(total·totalChunks)` gives `2`. -/
theorem progress_formula_counterexample :
    ∃ r, callModel trivialEngine trivialCfgs (fun s => s) [] (fun _ => 0)
        { ttlDims := [1] } (ascii "Hi.") 1 1 (3 / 10) = .ok r ∧
      ∃ e ∈ r.events,
        e.overallProgress ≠ (e.chunkIndex : ℚ) / (e.totalChunks : ℚ) +
          (e.step : ℚ) / ((e.total : ℚ) * (e.totalChunks : ℚ)) := by
  obtain ⟨w, hw⟩ := callModel_closed trivialEngine trivialCfgs (fun s => s) [] (fun _ => 0)
    { ttlDims := [1] } (ascii "Hi.") 1 1 (3 / 10) rfl
  have hc : chunkText (ascii "Hi.") chunkTextDefaultMaxLen = [ascii "Hi."] := by decide
  rw [hc] at hw
  refine ⟨_, hw, ?_⟩
  have hev : (List.range' 0 ([ascii "Hi."] : List JStr).length).flatMap
      (fun i => chunkEvents 1 i ([ascii "Hi."] : List JStr).length) =
      [{ step := 1, total := 1, chunkIndex := 1, totalChunks := 1,
         overallProgress := (0 : ℚ) / 1 + ((0 + 1 : Nat) : ℚ) / (1 : ℚ) / 1 }] := rfl
  refine ⟨_, by rw [hev]; exact List.mem_singleton.mpr rfl, ?_⟩
  norm_num

/-- C2 (amended): each denoising progress event `(step, totalSteps,
chunkIndex, totalChunks, overallProgress)` satisfies
`overallProgress = (chunkIndex − 1)/totalChunks + step/(totalSteps·totalChunks)`
— the code derives it from `processedChunks = chunkIndex − 1`, not from the
reported 1-based chunk index — with `1 ≤ chunkIndex ≤ totalChunks`,
`totalChunks` the chunk count of the text, and `1 ≤ step ≤ totalSteps`. -/
theorem progress_event_formula {TE : Type} (E : Engine TE) (cfgs : Cfgs)
    (nfkd : JStr → JStr) (indexer : List Int) (rand : Nat → ℝ) (style : VoiceStyle)
    (text : JStr) (totalStep : Nat) (speed silence : ℚ) (r : CallResult)
    (hok : callModel E cfgs nfkd indexer rand style text totalStep speed silence = .ok r) :
    ∀ e ∈ r.events,
      e.overallProgress = ((e.chunkIndex : ℚ) - 1) / (e.totalChunks : ℚ) +
        (e.step : ℚ) / ((e.total : ℚ) * (e.totalChunks : ℚ)) ∧
      1 ≤ e.chunkIndex ∧ e.chunkIndex ≤ e.totalChunks ∧
      e.totalChunks = (chunkText text chunkTextDefaultMaxLen).length ∧
      e.total = totalStep ∧ 1 ≤ e.step ∧ e.step ≤ totalStep := by
  by_cases hstyle : style.ttlDims.headD 0 = 1
  · obtain ⟨w, hw⟩ := callModel_closed E cfgs nfkd indexer rand style text
      totalStep speed silence hstyle
    rw [hok] at hw
    have hr : r = _ := Except.ok.inj hw
    subst hr
    intro e he
    simp only [List.mem_flatMap] at he
    obtain ⟨i, hi, hei⟩ := he
    rw [List.mem_range'_1] at hi
    unfold chunkEvents at hei
    rw [List.mem_map] at hei
    obtain ⟨s, hs, rfl⟩ := hei
    rw [List.mem_range] at hs
    have hN : 1 ≤ (chunkText text chunkTextDefaultMaxLen).length := by omega
    dsimp only
    refine ⟨?_, by omega, by omega, rfl, rfl, by omega, by omega⟩
    push_cast
    rw [div_div]
    ring_nf
  · unfold callModel at hok
    rw [if_pos hstyle] at hok
    exact Except.noConfusion hok

theorem progress_event_formula_witness :
    ∃ r, callModel trivialEngine trivialCfgs (fun s => s) [] (fun _ => 0)
        { ttlDims := [1] } (ascii "Hi.") 2 1 (3 / 10) = .ok r ∧
      ∀ e ∈ r.events,
        e.overallProgress = ((e.chunkIndex : ℚ) - 1) / (e.totalChunks : ℚ) +
          (e.step : ℚ) / ((e.total : ℚ) * (e.totalChunks : ℚ)) ∧
        1 ≤ e.chunkIndex ∧ e.chunkIndex ≤ e.totalChunks ∧
        e.totalChunks = (chunkText (ascii "Hi.") chunkTextDefaultMaxLen).length ∧
        e.total = 2 ∧ 1 ≤ e.step ∧ e.step ≤ 2 := by
  obtain ⟨w, hw⟩ := callModel_closed trivialEngine trivialCfgs (fun s => s) [] (fun _ => 0)
    { ttlDims := [1] } (ascii "Hi.") 2 1 (3 / 10) rfl
  exact ⟨_, hw, progress_event_formula trivialEngine trivialCfgs (fun s => s) [] (fun _ => 0)
    { ttlDims := [1] } (ascii "Hi.") 2 1 (3 / 10) _ hw⟩

/-! ## C10: the speed divisor -/

/-- C10: `_infer` divides every model-predicted duration by `speed`
immediately after duration prediction — the returned durations, the latent
sizing input, and `call`'s duration accumulation all use the divided values —
and the default `speed` is 1.05 (= 21/20), so default-parameter generations
are timed from durations shrunk by a factor 1.05. -/
theorem speed_divides_durations {TE : Type} (E : Engine TE) (cfgs : Cfgs)
    (nfkd : JStr → JStr) (indexer : List Int) (rand : Nat → ℝ)
    (textList : List JStr) (style : VoiceStyle) (text : JStr) (totalStep : Nat)
    (speed silence : ℚ) (r : CallResult)
    (hok : callModel E cfgs nfkd indexer rand style text totalStep speed silence = .ok r) :
    (inferModel E cfgs nfkd indexer rand textList totalStep speed).duration =
      (E.predictDuration (uCall nfkd indexer textList).textIds
        (uCall nfkd indexer textList).textMask).map (fun d => d / speed) ∧
    (inferModel E cfgs nfkd indexer rand textList totalStep speed).sampled =
      sampleNoisyLatent rand
        ((E.predictDuration (uCall nfkd indexer textList).textIds
          (uCall nfkd indexer textList).textMask).map (fun d => d / speed))
        cfgs.sample_rate cfgs.base_chunk_size cfgs.chunk_compress_factor cfgs.latent_dim ∧
    (∀ c : JStr, chunkDur E cfgs nfkd indexer rand totalStep speed c =
      (E.predictDuration (uCall nfkd indexer [c]).textIds
        (uCall nfkd indexer [c]).textMask).headD 0 / speed) ∧
    r.duration = [((chunkText text chunkTextDefaultMaxLen).map
        (chunkDur E cfgs nfkd indexer rand totalStep speed)).sum +
      (((chunkText text chunkTextDefaultMaxLen).length - 1 : Nat) : ℚ) * silence] ∧
    defaultSpeed = 21 / 20 := by
  have hheadD : ∀ (l : List ℚ), (l.map (fun d => d / speed)).headD 0 = l.headD 0 / speed := by
    intro l
    cases l with
    | nil => simp
    | cons a l => simp
  refine ⟨rfl, rfl, ?_, ?_, by norm_num [defaultSpeed]⟩
  · intro c
    unfold chunkDur inferModel
    exact hheadD _
  · by_cases hstyle : style.ttlDims.headD 0 = 1
    · obtain ⟨w, hw⟩ := callModel_closed E cfgs nfkd indexer rand style text
        totalStep speed silence hstyle
      rw [hok] at hw
      have hr : r = _ := Except.ok.inj hw
      rw [hr]
    · unfold callModel at hok
      rw [if_pos hstyle] at hok
      exact Except.noConfusion hok

theorem speed_divides_durations_witness :
    ∃ r, callModel trivialEngine trivialCfgs (fun s => s) [] (fun _ => 0)
        { ttlDims := [1] } (ascii "Hi.") 2 (3 / 2) 0 = .ok r ∧
      ((inferModel trivialEngine trivialCfgs (fun s => s) [] (fun _ => 0)
          [ascii "Hi."] 2 (3 / 2)).duration =
        (Engine.predictDuration trivialEngine
          (uCall (fun s => s) [] [ascii "Hi."]).textIds
          (uCall (fun s => s) [] [ascii "Hi."]).textMask).map (fun d => d / (3 / 2)) ∧
      r.duration = [((chunkText (ascii "Hi.") chunkTextDefaultMaxLen).map
          (chunkDur trivialEngine trivialCfgs (fun s => s) [] (fun _ => 0) 2 (3 / 2))).sum +
        (((chunkText (ascii "Hi.") chunkTextDefaultMaxLen).length - 1 : Nat) : ℚ) * 0] ∧
      defaultSpeed = 21 / 20) := by
  obtain ⟨w, hw⟩ := callModel_closed trivialEngine trivialCfgs (fun s => s) [] (fun _ => 0)
    { ttlDims := [1] } (ascii "Hi.") 2 (3 / 2) 0 rfl
  obtain ⟨h1, _, _, h4, h5⟩ := speed_divides_durations trivialEngine trivialCfgs
    (fun s => s) [] (fun _ => 0) [ascii "Hi."] { ttlDims := [1] } (ascii "Hi.")
    2 (3 / 2) 0 _ hw
  exact ⟨_, hw, h1, h4, h5⟩

/-! ## C3: chunk lengths -/

theorem length_dropWhile_le (p : Nat → Bool) (l : List Nat) :
    (l.dropWhile p).length ≤ l.length := by
  induction l with
  | nil => simp
  | cons a l ih =>
    rw [List.dropWhile_cons]
    by_cases h : p a
    · rw [if_pos h]
      exact le_trans ih (Nat.le_succ _)
    · rw [if_neg h]

theorem trimJS_length_le (s : JStr) : (trimJS s).length ≤ s.length := by
  unfold trimJS
  calc ((s.dropWhile isWS).reverse.dropWhile isWS).reverse.length
      = ((s.dropWhile isWS).reverse.dropWhile isWS).length := List.length_reverse _
    _ ≤ (s.dropWhile isWS).reverse.length := length_dropWhile_le _ _
    _ = (s.dropWhile isWS).length := List.length_reverse _
    _ ≤ s.length := length_dropWhile_le _ _

theorem chunkFold_inv (maxLen : Nat) (sentences : List JStr) :
    ∀ (l : List JStr) (st : List JStr × JStr),
      (∀ s ∈ l, s ∈ sentences) →
      (∀ c ∈ st.1, c.length ≤ maxLen ∨
        ∃ s ∈ sentences, c = trimJS s ∧ maxLen < s.length) →
      (st.2 = [] ∨ st.2.length ≤ maxLen ∨ ∃ s ∈ sentences, st.2 = s) →
      (∀ c ∈ (l.foldl (chunkStep maxLen) st).1, c.length ≤ maxLen ∨
        ∃ s ∈ sentences, c = trimJS s ∧ maxLen < s.length) ∧
      ((l.foldl (chunkStep maxLen) st).2 = [] ∨
        (l.foldl (chunkStep maxLen) st).2.length ≤ maxLen ∨
        ∃ s ∈ sentences, (l.foldl (chunkStep maxLen) st).2 = s) := by
  intro l
  induction l with
  | nil => intro st _ hP hQ; exact ⟨hP, hQ⟩
  | cons s l ih =>
    intro st hl hP hQ
    rw [List.foldl_cons]
    have hs : s ∈ sentences := hl s (List.mem_cons_self s l)
    have hl' : ∀ x ∈ l, x ∈ sentences := fun x hx => hl x (List.mem_cons_of_mem s hx)
    -- the flushed current chunk always satisfies the chunk property
    have hflush : st.2 ≠ [] → ((trimJS st.2).length ≤ maxLen ∨
        ∃ x ∈ sentences, trimJS st.2 = trimJS x ∧ maxLen < x.length) := by
      intro hne
      rcases hQ with h | h | ⟨x, hx, hcur⟩
      · exact absurd h hne
      · exact Or.inl (le_trans (trimJS_length_le st.2) h)
      · by_cases hlen : (trimJS st.2).length ≤ maxLen
        · exact Or.inl hlen
        · refine Or.inr ⟨x, hx, by rw [hcur], ?_⟩
          have h1 : (trimJS st.2).length ≤ st.2.length := trimJS_length_le st.2
          have h2 : st.2.length = x.length := by rw [hcur]
          omega
    apply ih
    · exact hl'
    · -- chunk list after one step
      unfold chunkStep
      by_cases hfits : st.2.length + s.length + 1 ≤ maxLen
      · rw [if_pos hfits]
        exact hP
      · rw [if_neg hfits]
        by_cases hemp : st.2.isEmpty
        · rw [if_pos hemp]
          exact hP
        · rw [if_neg hemp]
          intro c hc
          rcases List.mem_append.mp hc with h | h
          · exact hP c h
          · have hc2 : c = trimJS st.2 := List.mem_singleton.mp h
            have hne : st.2 ≠ [] := by
              intro h0
              rw [h0] at hemp
              exact hemp rfl
            rcases hflush hne with h | ⟨x, hx, he, hlen⟩
            · exact Or.inl (hc2 ▸ h)
            · exact Or.inr ⟨x, hx, by rw [hc2, he], hlen⟩
    · -- current chunk after one step
      unfold chunkStep
      by_cases hfits : st.2.length + s.length + 1 ≤ maxLen
      · rw [if_pos hfits]
        by_cases hemp : st.2.isEmpty
        · rw [if_pos hemp]
          exact Or.inr (Or.inr ⟨s, hs, rfl⟩)
        · rw [if_neg hemp]
          refine Or.inr (Or.inl ?_)
          simp only [List.length_append, List.length_cons]
          omega
      · rw [if_neg hfits]
        exact Or.inr (Or.inr ⟨s, hs, rfl⟩)

theorem paraChunks_bound (maxLen : Nat) (sentences : List JStr) (c : JStr)
    (hc : c ∈ paraChunks maxLen sentences) :
    c.length ≤ maxLen ∨ ∃ s ∈ sentences, c = trimJS s ∧ maxLen < s.length := by
  unfold paraChunks at hc
  obtain ⟨hP, hQ⟩ := chunkFold_inv maxLen sentences sentences ([], [])
    (fun s hs => hs) (by intro c hc; simp at hc) (Or.inl rfl)
  rcases List.mem_append.mp hc with h | h
  · exact hP c h
  · by_cases hemp : (sentences.foldl (chunkStep maxLen) ([], [])).2.isEmpty
    · rw [if_pos hemp] at h
      simp at h
    · rw [if_neg hemp] at h
      have hc2 : c = trimJS (sentences.foldl (chunkStep maxLen) ([], [])).2 :=
        List.mem_singleton.mp h
      have hne : (sentences.foldl (chunkStep maxLen) ([], [])).2 ≠ [] := by
        intro h0
        rw [h0] at hemp
        exact hemp rfl
      rcases hQ with h0 | hlen | ⟨x, hx, he⟩
      · exact absurd h0 hne
      · exact Or.inl (hc2 ▸ le_trans (trimJS_length_le _) hlen)
      · by_cases hclen : c.length ≤ maxLen
        · exact Or.inl hclen
        · refine Or.inr ⟨x, hx, by rw [hc2, he], ?_⟩
          have h1 : (trimJS x).length ≤ x.length := trimJS_length_le x
          rw [hc2, he] at hclen
          omega

theorem chunkText_fold_bound (maxLen : Nat) (allParas : List JStr) :
    ∀ (l : List JStr) (acc : List JStr),
      (∀ p ∈ l, p ∈ allParas) →
      (∀ c ∈ acc, c.length ≤ maxLen ∨
        ∃ p ∈ allParas, ∃ s ∈ splitSentences (trimJS p), c = trimJS s ∧ maxLen < s.length) →
      ∀ c ∈ l.foldl (fun chunks para =>
          let pt := trimJS para
          if pt.isEmpty then chunks
          else chunks ++ paraChunks maxLen (splitSentences pt)) acc,
        c.length ≤ maxLen ∨
        ∃ p ∈ allParas, ∃ s ∈ splitSentences (trimJS p), c = trimJS s ∧ maxLen < s.length := by
  intro l
  induction l with
  | nil => intro acc _ hacc; exact hacc
  | cons p l ih =>
    intro acc hl hacc
    rw [List.foldl_cons]
    have hp : p ∈ allParas := hl p (List.mem_cons_self p l)
    apply ih
    · exact fun x hx => hl x (List.mem_cons_of_mem p hx)
    · dsimp only
      by_cases hemp : (trimJS p).isEmpty
      · rw [if_pos hemp]
        exact hacc
      · rw [if_neg hemp]
        intro c hc
        rcases List.mem_append.mp hc with h | h
        · exact hacc c h
        · rcases paraChunks_bound maxLen (splitSentences (trimJS p)) c h with h | ⟨s, hs, he, hlen⟩
          · exact Or.inl h
          · exact Or.inr ⟨p, hp, s, hs, he, hlen⟩

/-- C3: every chunk produced by `chunkText` has length at most `maxLen`,
except that a chunk may be the (trimmed) text of a single sentence — as
delimited by the sentence-split rule within a paragraph — whose own length
exceeds `maxLen`; sentences are never split. -/
theorem chunk_length_bound (text : JStr) (maxLen : Nat) (c : JStr)
    (hc : c ∈ chunkText text maxLen) :
    c.length ≤ maxLen ∨
    ∃ p ∈ splitParagraphs (trimJS text), ∃ s ∈ splitSentences (trimJS p),
      c = trimJS s ∧ maxLen < s.length := by
  unfold chunkText at hc
  have := chunkText_fold_bound maxLen
    ((splitParagraphs (trimJS text)).filter (fun p => !(trimJS p).isEmpty))
    ((splitParagraphs (trimJS text)).filter (fun p => !(trimJS p).isEmpty))
    [] (fun p hp => hp) (by intro c hc; simp at hc) c hc
  rcases this with h | ⟨p, hp, s, hs, he, hlen⟩
  · exact Or.inl h
  · exact Or.inr ⟨p, (List.mem_filter.mp hp).1, s, hs, he, hlen⟩

theorem chunk_length_bound_witness :
    (ascii "Hi.").length ≤ 300 ∨
    ∃ p ∈ splitParagraphs (trimJS (ascii "Hi.")),
      ∃ s ∈ splitSentences (trimJS p), ascii "Hi." = trimJS s ∧ 300 < s.length :=
  chunk_length_bound (ascii "Hi.") 300 (ascii "Hi.") (by decide)

/-! ## C5: the latent sampler -/

/-- `Math.floor((x + chunkSize - 1) / chunkSize)` is the ceiling of `x / chunkSize`. -/
theorem nat_ceilDiv_eq (w cs : Nat) (h : 0 < cs) :
    (w + cs - 1) / cs = ⌈(w : ℚ) / (cs : ℚ)⌉₊ := by
  have hcsQ : (0 : ℚ) < (cs : ℚ) := by exact_mod_cast h
  apply le_antisymm
  · have h1 : (w : ℚ) / (cs : ℚ) ≤ (⌈(w : ℚ) / (cs : ℚ)⌉₊ : ℚ) := Nat.le_ceil _
    have h2 : (w : ℚ) ≤ (⌈(w : ℚ) / (cs : ℚ)⌉₊ : ℚ) * (cs : ℚ) := by
      rwa [div_le_iff hcsQ] at h1
    have h3 : w ≤ ⌈(w : ℚ) / (cs : ℚ)⌉₊ * cs := by exact_mod_cast h2
    have h5 : (w + cs - 1) / cs < ⌈(w : ℚ) / (cs : ℚ)⌉₊ + 1 := by
      rw [Nat.div_lt_iff_lt_mul h, Nat.succ_mul]
      omega
    omega
  · rw [Nat.ceil_le, div_le_iff hcsQ]
    have hdm := Nat.div_add_mod (w + cs - 1) cs
    have hmod := Nat.mod_lt (w + cs - 1) h
    have h4 : w ≤ (w + cs - 1) / cs * cs := by
      rw [Nat.mul_comm]
      omega
    exact_mod_cast h4

/-- One entry of the sampled latent tensor. -/
noncomputable def latentEntry (L : LatentSample) (b d t : Nat) : ℝ :=
  ((L.xt.getD b []).getD d []).getD t 0

theorem boxMuller_abs_le (rand : Nat → ℝ) (hrand : ∀ n, 0 ≤ rand n ∧ rand n < 1)
    (k : Nat) : |boxMuller rand k| ≤ Real.sqrt (2 * Real.log 10000) := by
  unfold boxMuller
  have hu1pos : (0 : ℝ) < max (1 / 10000) (rand (2 * k)) :=
    lt_of_lt_of_le (by norm_num) (le_max_left _ _)
  have hu1le : max (1 / 10000 : ℝ) (rand (2 * k)) ≤ 1 :=
    max_le (by norm_num) (le_of_lt (hrand (2 * k)).2)
  have hu1ge : (1 / 10000 : ℝ) ≤ max (1 / 10000) (rand (2 * k)) := le_max_left _ _
  have hlogle : Real.log (max (1 / 10000) (rand (2 * k))) ≤ 0 :=
    Real.log_nonpos (le_of_lt hu1pos) hu1le
  have hlogge : Real.log (1 / 10000 : ℝ) ≤ Real.log (max (1 / 10000) (rand (2 * k))) :=
    Real.log_le_log (by norm_num) hu1ge
  have hlog1 : Real.log (1 / 10000 : ℝ) = -Real.log 10000 := by
    rw [one_div, Real.log_inv]
  have harg : -2 * Real.log (max (1 / 10000) (rand (2 * k))) ≤ 2 * Real.log 10000 := by
    nlinarith [hlogge, hlog1]
  rw [abs_mul, abs_of_nonneg (Real.sqrt_nonneg _)]
  calc Real.sqrt (-2 * Real.log (max (1 / 10000) (rand (2 * k)))) *
        |Real.cos (2 * Real.pi * rand (2 * k + 1))|
      ≤ Real.sqrt (2 * Real.log 10000) * 1 :=
        mul_le_mul (Real.sqrt_le_sqrt harg) (Real.abs_cos_le_one _) (abs_nonneg _)
          (Real.sqrt_nonneg _)
    _ = Real.sqrt (2 * Real.log 10000) := mul_one _

theorem lengthToMask_mem_binary (lengths : List Nat) (m : Option Nat) :
    ∀ r ∈ lengthToMask lengths m, ∀ rr ∈ r, ∀ x ∈ rr, x = 0 ∨ x = 1 := by
  intro r hr rr hrr x hx
  unfold lengthToMask at hr
  rw [List.mem_map] at hr
  obtain ⟨len, _, rfl⟩ := hr
  rw [List.mem_singleton] at hrr
  subst hrr
  rw [List.mem_map] at hx
  obtain ⟨j, _, rfl⟩ := hx
  split_ifs <;> simp

/-- Every entry of a `lengthToMask` tensor is 0 or 1 (reading out of range
gives the default 0). -/
theorem lengthToMask_entry_eq (lengths : List Nat) (m : Option Nat) (b j t : Nat) :
    (((lengthToMask lengths m).getD b []).getD j []).getD t 0 = 0 ∨
    (((lengthToMask lengths m).getD b []).getD j []).getD t 0 = 1 := by
  by_cases hb : b < (lengthToMask lengths m).length
  · have hbmem : (lengthToMask lengths m).getD b [] ∈ lengthToMask lengths m := by
      rw [List.getD_eq_getElem _ _ hb]
      exact List.getElem_mem hb
    by_cases hj : j < ((lengthToMask lengths m).getD b []).length
    · have hjmem : ((lengthToMask lengths m).getD b []).getD j [] ∈
          (lengthToMask lengths m).getD b [] := by
        rw [List.getD_eq_getElem _ _ hj]
        exact List.getElem_mem hj
      by_cases ht : t < (((lengthToMask lengths m).getD b []).getD j []).length
      · have htmem : (((lengthToMask lengths m).getD b []).getD j []).getD t 0 ∈
            ((lengthToMask lengths m).getD b []).getD j [] := by
          rw [List.getD_eq_getElem _ _ ht]
          exact List.getElem_mem ht
        exact lengthToMask_mem_binary lengths m _ hbmem _ hjmem _ htmem
      · rw [List.getD_eq_default _ _ (Nat.le_of_not_lt ht)]
        exact Or.inl rfl
    · rw [List.getD_eq_default _ _ (Nat.le_of_not_lt hj)]
      rw [List.getD_nil]
      exact Or.inl rfl
  · rw [List.getD_eq_default _ _ (Nat.le_of_not_lt hb)]
    rw [List.getD_nil, List.getD_nil]
    exact Or.inl rfl

/-- C5: the sampled noisy latent has batch size `duration.length`, channel
count `latentDim · chunkCompress`, latent length
`⌈batchWaveformLen / (baseChunkSize · chunkCompress)⌉` with
`batchWaveformLen = floor(max duration · sampleRate)`; every entry beyond an
item's own valid latent length (derived the same way from its own
`floor(duration · sampleRate)`) is exactly 0; and every entry is bounded by
`sqrt(2 ln 10000)` — the Box-Muller uniform `u1` is clamped to at least
0.0001, so no entry is infinite. -/
theorem sampleNoisyLatent_spec (rand : Nat → ℝ) (duration : List ℚ) (sampleRate : ℚ)
    (baseChunkSize chunkCompress latentDim : Nat)
    (hcs : 0 < baseChunkSize * chunkCompress)
    (hrand : ∀ n, 0 ≤ rand n ∧ rand n < 1) :
    (sampleNoisyLatent rand duration sampleRate baseChunkSize chunkCompress
      latentDim).xt.length = duration.length ∧
    (∀ b, b < duration.length →
      ((sampleNoisyLatent rand duration sampleRate baseChunkSize chunkCompress
        latentDim).xt.getD b []).length = latentDim * chunkCompress) ∧
    (∀ b d, b < duration.length → d < latentDim * chunkCompress →
      (((sampleNoisyLatent rand duration sampleRate baseChunkSize chunkCompress
        latentDim).xt.getD b []).getD d []).length =
        ⌈(((⌊listMaxQ duration * sampleRate⌋).toNat : ℚ)) /
          ((baseChunkSize * chunkCompress : Nat) : ℚ)⌉₊) ∧
    (∀ b d t,
      ((⌊duration.getD b 0 * sampleRate⌋).toNat + baseChunkSize * chunkCompress - 1) /
          (baseChunkSize * chunkCompress) ≤ t →
      latentEntry (sampleNoisyLatent rand duration sampleRate baseChunkSize chunkCompress
        latentDim) b d t = 0) ∧
    (∀ b d t,
      |latentEntry (sampleNoisyLatent rand duration sampleRate baseChunkSize chunkCompress
        latentDim) b d t| ≤ Real.sqrt (2 * Real.log 10000)) := by
  unfold sampleNoisyLatent latentEntry
  dsimp only
  constructor
  · simp
  constructor
  · intro b hb
    rw [getD_range_map]
    simp [hb]
  constructor
  · intro b d hb hd
    rw [getD_range_map, if_pos hb, getD_range_map, if_pos hd]
    simp only [List.length_map, List.length_range]
    exact nat_ceilDiv_eq _ _ hcs
  constructor
  · intro b d t hlen
    rw [getD_range_map]
    by_cases hb : b < duration.length
    · rw [if_pos hb, getD_range_map]
      by_cases hd : d < latentDim * chunkCompress
      · rw [if_pos hd, getD_range_map]
        by_cases ht : t < ((⌊listMaxQ duration * sampleRate⌋).toNat +
            baseChunkSize * chunkCompress - 1) / (baseChunkSize * chunkCompress)
        · rw [if_pos ht]
          have hmask0 : (((lengthToMask
              ((duration.map (fun d => (⌊d * sampleRate⌋).toNat)).map
                (fun len => (len + baseChunkSize * chunkCompress - 1) /
                  (baseChunkSize * chunkCompress)))
              (some (((⌊listMaxQ duration * sampleRate⌋).toNat +
                baseChunkSize * chunkCompress - 1) /
                (baseChunkSize * chunkCompress)))).getD b []).getD 0 []).getD t 0 = 0 := by
            unfold lengthToMask
            dsimp only
            rw [if_neg (by omega)]
            rw [getD_map_lt _ _ b (by simpa using hb) [] 0, List.getD_cons_zero,
              getD_range_map, if_pos ht]
            have hlb : ((duration.map (fun d => (⌊d * sampleRate⌋).toNat)).map
                (fun len => (len + baseChunkSize * chunkCompress - 1) /
                  (baseChunkSize * chunkCompress))).getD b 0 =
                ((⌊duration.getD b 0 * sampleRate⌋).toNat +
                  baseChunkSize * chunkCompress - 1) / (baseChunkSize * chunkCompress) := by
              rw [getD_map_lt _ _ b (by simpa using hb) 0 0,
                getD_map_lt _ _ b hb 0 0]
            rw [hlb, if_neg (by omega)]
          rw [hmask0]
          simp
        · rw [if_neg ht]
      · rw [if_neg hd]
        simp
    · rw [if_neg hb]
      simp
  · intro b d t
    have hbound : (0 : ℝ) ≤ Real.sqrt (2 * Real.log 10000) := Real.sqrt_nonneg _
    rw [getD_range_map]
    by_cases hb : b < duration.length
    · rw [if_pos hb, getD_range_map]
      by_cases hd : d < latentDim * chunkCompress
      · rw [if_pos hd, getD_range_map]
        by_cases ht : t < ((⌊listMaxQ duration * sampleRate⌋).toNat +
            baseChunkSize * chunkCompress - 1) / (baseChunkSize * chunkCompress)
        · rw [if_pos ht, abs_mul]
          have hm := boxMuller_abs_le rand hrand
            ((b * (latentDim * chunkCompress) + d) *
              (((⌊listMaxQ duration * sampleRate⌋).toNat +
                baseChunkSize * chunkCompress - 1) / (baseChunkSize * chunkCompress)) + t)
          rcases lengthToMask_entry_eq
              ((duration.map (fun d => (⌊d * sampleRate⌋).toNat)).map
                (fun len => (len + baseChunkSize * chunkCompress - 1) /
                  (baseChunkSize * chunkCompress)))
              (some (((⌊listMaxQ duration * sampleRate⌋).toNat +
                baseChunkSize * chunkCompress - 1) / (baseChunkSize * chunkCompress)))
              b 0 t with hmv | hmv
          · rw [hmv]
            simp
          · rw [hmv]
            calc |boxMuller rand _| * |((1 : ℚ) : ℝ)|
                ≤ Real.sqrt (2 * Real.log 10000) * 1 :=
                  mul_le_mul hm (by norm_num) (abs_nonneg _) hbound
              _ = _ := mul_one _
        · rw [if_neg ht]
          simp [hbound]
      · rw [if_neg hd]
        simp [hbound]
    · rw [if_neg hb]
      simp [hbound]

theorem sampleNoisyLatent_spec_witness :
    (sampleNoisyLatent (fun _ => 0) [1] 24000 512 4 24).xt.length = [(1 : ℚ)].length ∧
    (∀ b d t, |latentEntry (sampleNoisyLatent (fun _ => 0) [1] 24000 512 4 24) b d t| ≤
      Real.sqrt (2 * Real.log 10000)) := by
  have h := sampleNoisyLatent_spec (fun _ => 0) [1] 24000 512 4 24 (by norm_num)
    (fun n => by norm_num)
  exact ⟨h.1, h.2.2.2.2⟩

/-! ## C8: terminal punctuation -/

/-- The step-10 characterization shared by C8 and the idempotence analysis. -/
theorem preprocessText_ends (nfkd : JStr → JStr) (x : JStr) :
    endsTerminal (preprocessText nfkd x) = true ∧
    (preprocessText nfkd x = preNormalize nfkd x ↔
      endsTerminal (preNormalize nfkd x) = true) ∧
    (preNormalize nfkd x = [] → preprocessText nfkd x = [0x2E]) := by
  unfold preprocessText
  by_cases h : endsTerminal (preNormalize nfkd x) = true
  · rw [if_pos h]
    refine ⟨h, ⟨fun _ => h, fun _ => rfl⟩, ?_⟩
    intro h0
    rw [h0] at h
    simp [endsTerminal] at h
  · rw [if_neg h]
    refine ⟨?_, ⟨?_, ?_⟩, ?_⟩
    · unfold endsTerminal
      rw [List.getLast?_concat]
      rfl
    · intro heq
      have hlen := congrArg List.length heq
      simp at hlen
    · intro ht
      exact absurd ht h
    · intro h0
      rw [h0]
      rfl

/-- C8: for every input string (and any behaviour of the platform NFKD
step), the normalized output ends with a character of the fixed terminal
punctuation set; a period is appended exactly when the pre-append stages do
not already end with one of those characters; and an input that is empty
after the earlier normalization steps yields just a period. (Totality of the
embedding mirrors that no normalization step throws.) -/
theorem normalized_ends_terminal (nfkd : JStr → JStr) (x : JStr) :
    endsTerminal (preprocessText nfkd x) = true ∧
    (preprocessText nfkd x = preNormalize nfkd x ↔
      endsTerminal (preNormalize nfkd x) = true) ∧
    (preNormalize nfkd x = [] → preprocessText nfkd x = [0x2E]) :=
  preprocessText_ends nfkd x

/-! ## C1: idempotence analysis

The pipeline is not idempotent; the lemmas below characterize each stage
well enough to decide when a second pass is the identity. -/

theorem replAux_subset (pat repl : JStr) :
    ∀ (s : JStr) (skip : Nat), ∀ c ∈ replAux pat repl skip s, c ∈ s ∨ c ∈ repl := by
  intro s
  induction s with
  | nil => intro skip c hc; simp [replAux] at hc
  | cons a rest ih =>
    intro skip c hc
    cases skip with
    | succ skip =>
      rw [replAux] at hc
      rcases ih skip c hc with h | h
      · exact Or.inl (List.mem_cons_of_mem a h)
      · exact Or.inr h
    | zero =>
      rw [replAux] at hc
      split_ifs at hc with hpre
      · rcases List.mem_append.mp hc with h | h
        · exact Or.inr h
        · rcases ih _ c h with h2 | h2
          · exact Or.inl (List.mem_cons_of_mem a h2)
          · exact Or.inr h2
      · rcases List.mem_cons.mp hc with h | h
        · exact Or.inl (h ▸ List.mem_cons_self a rest)
        · rcases ih 0 c h with h2 | h2
          · exact Or.inl (List.mem_cons_of_mem a h2)
          · exact Or.inr h2

theorem replaceAll_subset (pat repl s : JStr) :
    ∀ c ∈ replaceAll pat repl s, c ∈ s ∨ c ∈ repl :=
  replAux_subset pat repl s 0

theorem replaceAll_single_map (k v : Nat) (s : JStr) :
    replaceAll [k] [v] s = s.map (fun c => if c = k then v else c) := by
  unfold replaceAll
  induction s with
  | nil => rfl
  | cons a rest ih =>
    rw [replAux]
    by_cases h : a = k
    · have hpre : [k].isPrefixOf (a :: rest) = true := by
        simp [List.isPrefixOf, h]
      rw [if_pos hpre]
      simp only [List.length_cons, List.length_nil, Nat.zero_add, Nat.sub_self]
      rw [List.map_cons, if_pos h]
      exact congrArg _ ih
    · have hpre : ¬([k].isPrefixOf (a :: rest) = true) := by
        simp [List.isPrefixOf, h]
        intro he
        exact absurd he.symm h
      rw [if_neg hpre, List.map_cons, if_neg h]
      exact congrArg _ ih

theorem containsSub_tail (pat : JStr) (a : Nat) (rest : JStr) (h : containsSub pat rest = true) :
    containsSub pat (a :: rest) = true := by
  rw [containsSub, h, Bool.or_true]

theorem replaceAll_id_of_not_contains (pat repl : JStr) :
    ∀ s, containsSub pat s = false → replaceAll pat repl s = s := by
  unfold replaceAll
  intro s
  induction s with
  | nil => intro _; rfl
  | cons a rest ih =>
    intro h
    rw [containsSub, Bool.or_eq_false_iff] at h
    rw [replAux, if_neg (by rw [h.1]; exact Bool.false_ne_true)]
    exact congrArg _ (ih h.2)

theorem replAux_single_ne (k : Nat) (repl : JStr) (hk : k ∉ repl) :
    ∀ (s : JStr), ∀ c ∈ replAux [k] repl 0 s, c ≠ k := by
  intro s
  induction s with
  | nil => intro c hc; simp [replAux] at hc
  | cons a rest ih =>
    intro c hc
    rw [replAux] at hc
    split_ifs at hc with hpre
    · simp only [List.length_cons, List.length_nil, Nat.zero_add, Nat.sub_self] at hc
      rcases List.mem_append.mp hc with h | h
      · intro he; exact hk (he ▸ h)
      · exact ih c h
    · have ha : a ≠ k := by
        simp [List.isPrefixOf] at hpre
        intro he
        exact hpre he.symm
      rcases List.mem_cons.mp hc with h | h
      · exact h ▸ ha
      · exact ih c h

theorem map_id_of_mem {α : Type} (f : α → α) :
    ∀ (s : List α), (∀ c ∈ s, f c = c) → s.map f = s := by
  intro s
  induction s with
  | nil => intro _; rfl
  | cons a rest ih =>
    intro h
    rw [List.map_cons, h a (List.mem_cons_self a rest),
      ih (fun c hc => h c (List.mem_cons_of_mem a hc))]

/-- The per-character substitution the `CHAR_REPLACEMENTS` pass amounts to
(all keys and values are single units). -/
def substAll (c : Nat) : Nat :=
  CHAR_REPLACEMENTS.foldl (fun x kv => if x = kv.1 then kv.2 else x) c

/-- The keys of `CHAR_REPLACEMENTS` whose replacement actually changes the
character (all of them except the accidental identity entry for `"`). -/
def activeKeys : JStr :=
  [0x2013, 0x2011, 0x2014, 0xAF, 0x5F, 0x2018, 0x2019, 0xB4, 0x60, 0x5B,
   0x5D, 0x7C, 0x2F, 0x23, 0x2192, 0x2190]

theorem foldl_replaceAll_map (table : List (Nat × Nat)) :
    ∀ s : JStr, table.foldl (fun acc kv => replaceAll [kv.1] [kv.2] acc) s =
      s.map (fun c => table.foldl (fun x kv => if x = kv.1 then kv.2 else x) c) := by
  induction table with
  | nil =>
    intro s
    simp
  | cons kv t ih =>
    intro s
    rw [List.foldl_cons, ih, replaceAll_single_map, List.map_map]
    rfl

theorem charReplacements_eq_map (s : JStr) : charReplacements s = s.map substAll :=
  foldl_replaceAll_map CHAR_REPLACEMENTS s

set_option maxHeartbeats 1000000 in
theorem substAll_id_of_not_active (c : Nat) (h : c ∉ activeKeys) : substAll c = c := by
  by_cases h22 : c = 0x22
  · subst h22
    decide
  · simp only [activeKeys, List.mem_cons, List.not_mem_nil, or_false, not_or] at h
    obtain ⟨n1, n2, n3, n4, n5, n6, n7, n8, n9, n10, n11, n12, n13, n14, n15, n16⟩ := h
    simp [substAll, CHAR_REPLACEMENTS, n1, n2, n3, n4, n5, h22, n6, n7, n8, n9, n10,
      n11, n12, n13, n14, n15, n16]

theorem substAll_not_active (c : Nat) : substAll c ∉ activeKeys := by
  by_cases h : c ∈ ([0x2013, 0x2011, 0x2014, 0xAF, 0x5F, 0x22, 0x2018, 0x2019, 0xB4,
      0x60, 0x5B, 0x5D, 0x7C, 0x2F, 0x23, 0x2192, 0x2190] : JStr)
  · fin_cases h <;> decide
  · have h2 : c ∉ activeKeys := by
      intro hmem
      apply h
      simp only [activeKeys, List.mem_cons, List.not_mem_nil, or_false] at hmem
      simp only [List.mem_cons, List.not_mem_nil, or_false]
      omega
    rw [substAll_id_of_not_active c h2]
    exact h2

theorem charReplacements_chars (s : JStr) : ∀ c ∈ charReplacements s, c ∉ activeKeys := by
  intro c hc
  rw [charReplacements_eq_map] at hc
  rw [List.mem_map] at hc
  obtain ⟨a, _, rfl⟩ := hc
  exact substAll_not_active a

theorem charReplacements_id (s : JStr) (h : ∀ c ∈ s, c ∉ activeKeys) :
    charReplacements s = s := by
  rw [charReplacements_eq_map]
  exact map_id_of_mem _ s (fun c hc => substAll_id_of_not_active c (h c hc))

theorem mem_of_containsSub (pat : JStr) :
    ∀ s, containsSub pat s = true → ∀ x ∈ pat, x ∈ s := by
  intro s
  induction s with
  | nil =>
    intro h x hx
    rw [containsSub, List.isEmpty_iff] at h
    subst h
    exact absurd hx (List.not_mem_nil x)
  | cons a rest ih =>
    intro h x hx
    rw [containsSub, Bool.or_eq_true] at h
    rcases h with h | h
    · exact (List.isPrefixOf_iff_prefix.mp h).subset hx
    · exact List.mem_cons_of_mem a (ih h x hx)

theorem containsSub_head_false (c : Nat) (p s : JStr) (h : c ∉ s) :
    containsSub (c :: p) s = false := by
  by_contra hc
  rw [Bool.not_eq_false] at hc
  exact h (mem_of_containsSub (c :: p) s hc c (List.mem_cons_self c p))

theorem mem_replaceFirst (pat repl : JStr) :
    ∀ s, ∀ c ∈ replaceFirst pat repl s, c ∈ s ∨ c ∈ repl := by
  intro s
  induction s with
  | nil => intro c hc; simp [replaceFirst] at hc
  | cons a rest ih =>
    intro c hc
    rw [replaceFirst] at hc
    split_ifs at hc with hpre
    · rcases List.mem_append.mp hc with h | h
      · exact Or.inr h
      · exact Or.inl (List.mem_of_mem_drop h)
    · rcases List.mem_cons.mp hc with h | h
      · exact Or.inl (h ▸ List.mem_cons_self a rest)
      · rcases ih c h with h2 | h2
        · exact Or.inl (List.mem_cons_of_mem a h2)
        · exact Or.inr h2

theorem mem_dupLoop (pat repl : JStr) :
    ∀ fuel s, ∀ c ∈ dupLoop pat repl fuel s, c ∈ s ∨ c ∈ repl := by
  intro fuel
  induction fuel with
  | zero => intro s c hc; exact Or.inl hc
  | succ fuel ih =>
    intro s c hc
    rw [dupLoop] at hc
    split_ifs at hc with hcon
    · rcases ih _ c hc with h | h
      · rcases mem_replaceFirst pat repl s c h with h2 | h2
        · exact Or.inl h2
        · exact Or.inr h2
      · exact Or.inr h
    · exact Or.inl hc

theorem mem_collapseDup (pat repl s : JStr) :
    ∀ c ∈ collapseDup pat repl s, c ∈ s ∨ c ∈ repl :=
  mem_dupLoop pat repl s.length s

theorem dupLoop_id_of_not_contains (pat repl : JStr) (fuel : Nat) (s : JStr)
    (h : containsSub pat s = false) : dupLoop pat repl fuel s = s := by
  cases fuel with
  | zero => rfl
  | succ fuel => rw [dupLoop, if_neg (by rw [h]; exact Bool.false_ne_true)]

theorem mem_spacingPunct : ∀ s : JStr, ∀ c ∈ spacingPunct s, c ∈ s := by
  intro s
  induction s using spacingPunct.induct with
  | case1 => intro c hc; exact hc
  | case2 a => intro c hc; exact hc
  | case3 a b r hm ih =>
    intro c hc
    rw [spacingPunct, if_pos hm] at hc
    rcases List.mem_cons.mp hc with h | h
    · exact List.mem_cons_of_mem a (h ▸ List.mem_cons_self b r)
    · exact List.mem_cons_of_mem a (List.mem_cons_of_mem b (ih c h))
  | case4 a b r hm ih =>
    intro c hc
    rw [spacingPunct, if_neg hm] at hc
    rcases List.mem_cons.mp hc with h | h
    · exact h ▸ List.mem_cons_self a (b :: r)
    · exact List.mem_cons_of_mem a (ih c h)

theorem mem_cwAux : ∀ (s : JStr) (b : Bool), ∀ c ∈ cwAux b s, c ∈ s ∨ c = 0x20 := by
  intro s
  induction s with
  | nil => intro b c hc; exact absurd hc (List.not_mem_nil c)
  | cons a rest ih =>
    intro b c hc
    rw [cwAux] at hc
    split_ifs at hc with hws hb
    · rcases ih true c hc with h | h
      · exact Or.inl (List.mem_cons_of_mem a h)
      · exact Or.inr h
    · rcases List.mem_cons.mp hc with h | h
      · exact Or.inr h
      · rcases ih true c h with h2 | h2
        · exact Or.inl (List.mem_cons_of_mem a h2)
        · exact Or.inr h2
    · rcases List.mem_cons.mp hc with h | h
      · exact Or.inl (h ▸ List.mem_cons_self a rest)
      · rcases ih false c h with h2 | h2
        · exact Or.inl (List.mem_cons_of_mem a h2)
        · exact Or.inr h2

theorem mem_trimJS (s : JStr) : ∀ c ∈ trimJS s, c ∈ s := by
  intro c hc
  unfold trimJS at hc
  rw [List.mem_reverse] at hc
  have h1 := (List.dropWhile_suffix isWS).subset hc
  rw [List.mem_reverse] at h1
  exact (List.dropWhile_suffix isWS).subset h1

theorem stripEmoji_id (s : JStr)
    (h : ∀ c ∈ s, isEmojiCP c = false ∧ isHighSurrogate c = false) :
    stripEmoji s = s := by
  induction s using stripEmoji.induct with
  | case1 => rfl
  | case2 a hem =>
    exact absurd hem (by rw [(h a (List.mem_cons_self a [])).1]; exact Bool.false_ne_true)
  | case3 a hem =>
    simp only [stripEmoji]
    rw [if_neg hem]
  | case4 a b rest hsur hem ih =>
    exact absurd (Bool.and_eq_true_iff.mp hsur).1
      (by rw [(h a (List.mem_cons_self a (b :: rest))).2]; exact Bool.false_ne_true)
  | case5 a b rest hsur hem ih =>
    exact absurd (Bool.and_eq_true_iff.mp hsur).1
      (by rw [(h a (List.mem_cons_self a (b :: rest))).2]; exact Bool.false_ne_true)
  | case6 a b rest hsur hem ih =>
    exact absurd hem
      (by rw [(h a (List.mem_cons_self a (b :: rest))).1]; exact Bool.false_ne_true)
  | case7 a b rest hsur hem ih =>
    rw [stripEmoji, if_neg hsur, if_neg hem]
    exact congrArg _ (ih (fun c hc => h c (List.mem_cons_of_mem a hc)))

theorem cwAux_true_ws {a : Nat} {rest : JStr} (h : isWS a = true) :
    cwAux true (a :: rest) = cwAux true rest := by
  simp [cwAux, h]

theorem cwAux_false_ws {a : Nat} {rest : JStr} (h : isWS a = true) :
    cwAux false (a :: rest) = 0x20 :: cwAux true rest := by
  simp [cwAux, h]

theorem cwAux_not_ws {a : Nat} {rest : JStr} (h : isWS a = false) (b : Bool) :
    cwAux b (a :: rest) = a :: cwAux false rest := by
  simp [cwAux, h]

theorem cwAux_ws_space : ∀ (s : JStr) (b : Bool), ∀ c ∈ cwAux b s, isWS c = true → c = 0x20 := by
  intro s
  induction s with
  | nil => intro b c hc; exact absurd hc (List.not_mem_nil c)
  | cons a rest ih =>
    intro b c hc hws
    by_cases hwa : isWS a = true
    · cases b with
      | true =>
        rw [cwAux_true_ws hwa] at hc
        exact ih true c hc hws
      | false =>
        rw [cwAux_false_ws hwa] at hc
        rcases List.mem_cons.mp hc with h | h
        · exact h
        · exact ih true c h hws
    · rw [Bool.not_eq_true] at hwa
      rw [cwAux_not_ws hwa b] at hc
      rcases List.mem_cons.mp hc with h | h
      · exact absurd (h ▸ hws) (by rw [hwa]; exact Bool.false_ne_true)
      · exact ih false c h hws

theorem cwAux_true_head (s : JStr) : ∀ h, (cwAux true s).head? = some h → isWS h = false := by
  induction s with
  | nil => intro h hh; exact absurd hh Option.noConfusion
  | cons a rest ih =>
    intro h hh
    by_cases hwa : isWS a = true
    · rw [cwAux_true_ws hwa] at hh
      exact ih h hh
    · rw [Bool.not_eq_true] at hwa
      rw [cwAux_not_ws hwa true, List.head?_cons, Option.some_inj] at hh
      rw [← hh]
      exact hwa

theorem cwAux_false_head (s : JStr) :
    ∀ h, (cwAux false s).head? = some h → h = 0x20 ∨ s.head? = some h := by
  cases s with
  | nil => intro h hh; exact absurd hh Option.noConfusion
  | cons a rest =>
    intro h hh
    by_cases hwa : isWS a = true
    · rw [cwAux_false_ws hwa, List.head?_cons, Option.some_inj] at hh
      exact Or.inl hh.symm
    · rw [Bool.not_eq_true] at hwa
      rw [cwAux_not_ws hwa false, List.head?_cons, Option.some_inj] at hh
      exact Or.inr (by rw [List.head?_cons, hh])

theorem cwAux_chain_nww :
    ∀ (s : JStr) (b : Bool),
      List.Chain' (fun x y => ¬(isWS x = true ∧ isWS y = true)) (cwAux b s) := by
  intro s
  induction s with
  | nil => intro b; exact List.chain'_nil
  | cons a rest ih =>
    intro b
    by_cases hwa : isWS a = true
    · cases b with
      | true => rw [cwAux_true_ws hwa]; exact ih true
      | false =>
        rw [cwAux_false_ws hwa]
        refine List.chain'_cons'.mpr ⟨fun y hy => ?_, ih true⟩
        rw [cwAux_true_head rest y hy]
        exact fun hco => Bool.false_ne_true hco.2
    · rw [Bool.not_eq_true] at hwa
      rw [cwAux_not_ws hwa b]
      refine List.chain'_cons'.mpr ⟨fun y hy => ?_, ih false⟩
      intro hco
      exact absurd hco.1 (by rw [hwa]; exact Bool.false_ne_true)

theorem cwAux_chain_pres (R : Nat → Nat → Prop) (h20 : ∀ x, R x 0x20 ∧ R 0x20 x) :
    ∀ (s : JStr) (b : Bool), List.Chain' R s → List.Chain' R (cwAux b s) := by
  intro s
  induction s with
  | nil => intro b _; exact List.chain'_nil
  | cons a rest ih =>
    intro b hc
    obtain ⟨hhead, htail⟩ := List.chain'_cons'.mp hc
    by_cases hwa : isWS a = true
    · cases b with
      | true => rw [cwAux_true_ws hwa]; exact ih true htail
      | false =>
        rw [cwAux_false_ws hwa]
        exact List.chain'_cons'.mpr ⟨fun y _ => (h20 y).2, ih true htail⟩
    · rw [Bool.not_eq_true] at hwa
      rw [cwAux_not_ws hwa b]
      refine List.chain'_cons'.mpr ⟨fun y hy => ?_, ih false htail⟩
      rcases cwAux_false_head rest y hy with h | h
      · exact h ▸ (h20 a).1
      · exact hhead y h

theorem cwAux_false_id :
    ∀ s : JStr, (∀ c ∈ s, isWS c = true → c = 0x20) →
      List.Chain' (fun x y => ¬(isWS x = true ∧ isWS y = true)) s → cwAux false s = s := by
  intro s
  induction s with
  | nil => intro _ _; rfl
  | cons a rest ih =>
    intro hchar hch
    obtain ⟨hhead, htail⟩ := List.chain'_cons'.mp hch
    by_cases hwa : isWS a = true
    · rw [cwAux_false_ws hwa, hchar a (List.mem_cons_self a rest) hwa]
      refine congrArg _ ?_
      cases rest with
      | nil => rfl
      | cons c r =>
        have hwc : isWS c = false := by
          by_contra hcc
          rw [Bool.not_eq_false] at hcc
          exact hhead c (List.head?_cons) ⟨hwa, hcc⟩
        rw [cwAux_not_ws hwc true]
        have hrec : cwAux false (c :: r) = c :: r :=
          ih (fun x hx => hchar x (List.mem_cons_of_mem a hx)) htail
        rw [cwAux_not_ws hwc false] at hrec
        exact hrec
    · rw [Bool.not_eq_true] at hwa
      rw [cwAux_not_ws hwa false]
      exact congrArg _ (ih (fun x hx => hchar x (List.mem_cons_of_mem a hx)) htail)

theorem head?_dropWhile (p : Nat → Bool) :
    ∀ (s : JStr) (h : Nat), (s.dropWhile p).head? = some h → p h = false := by
  intro s
  induction s with
  | nil => intro h hh; exact absurd hh Option.noConfusion
  | cons a rest ih =>
    intro h hh
    rw [List.dropWhile_cons] at hh
    split_ifs at hh with hpa
    · exact ih h hh
    · rw [List.head?_cons, Option.some_inj] at hh
      rw [← hh]
      exact Bool.not_eq_true _ ▸ hpa

theorem trimJS_prefixOf (s : JStr) : trimJS s <+: s.dropWhile isWS := by
  unfold trimJS
  have h := @List.dropWhile_suffix Nat ((s.dropWhile isWS).reverse) isWS
  have h2 := List.reverse_prefix.mpr h
  rwa [List.reverse_reverse] at h2

theorem head_of_prefixOf {l' l : List Nat} (h : l' <+: l) {a : Nat}
    (ha : l'.head? = some a) : l.head? = some a := by
  obtain ⟨t, rfl⟩ := h
  cases l' with
  | nil => exact absurd ha Option.noConfusion
  | cons x xs =>
    rw [List.head?_cons, Option.some_inj] at ha
    rw [List.cons_append, List.head?_cons, ha]

theorem trimJS_head_not_ws (s : JStr) :
    ∀ h, (trimJS s).head? = some h → isWS h = false := by
  intro c hc
  exact head?_dropWhile isWS s c (head_of_prefixOf (trimJS_prefixOf s) hc)

theorem trimJS_last_not_ws (s : JStr) :
    ∀ h, (trimJS s).getLast? = some h → isWS h = false := by
  intro h hh
  unfold trimJS at hh
  rw [List.getLast?_reverse] at hh
  exact head?_dropWhile isWS _ h hh

theorem dropWhile_id_of_head (p : Nat → Bool) (s : JStr)
    (h : ∀ c, s.head? = some c → p c = false) : s.dropWhile p = s := by
  cases s with
  | nil => rfl
  | cons a rest =>
    rw [List.dropWhile_cons,
      if_neg (by rw [h a List.head?_cons]; exact Bool.false_ne_true)]

theorem trimJS_id (s : JStr) (h1 : ∀ c, s.head? = some c → isWS c = false)
    (h2 : ∀ c, s.getLast? = some c → isWS c = false) : trimJS s = s := by
  unfold trimJS
  rw [dropWhile_id_of_head isWS s h1,
    dropWhile_id_of_head isWS s.reverse (fun c hc => h2 c (by rwa [List.head?_reverse] at hc)),
    List.reverse_reverse]

theorem trimJS_infixOf (s : JStr) : trimJS s <:+: s := by
  obtain ⟨t, ht⟩ := trimJS_prefixOf s
  obtain ⟨u, hu⟩ := @List.dropWhile_suffix Nat s isWS
  exact ⟨u, t, by rw [List.append_assoc, ht, hu]⟩

theorem containsSub_length (pat : JStr) :
    ∀ s, containsSub pat s = true → pat.length ≤ s.length := by
  intro s
  induction s with
  | nil =>
    intro h
    rw [containsSub, List.isEmpty_iff] at h
    rw [h]
  | cons a rest ih =>
    intro h
    rw [containsSub, Bool.or_eq_true] at h
    rcases h with h | h
    · exact (List.isPrefixOf_iff_prefix.mp h).length_le
    · exact Nat.le_trans (ih h) (by rw [List.length_cons]; omega)

theorem replaceFirst_length (pat repl : JStr) (hp : pat ≠ []) :
    ∀ s, containsSub pat s = true →
      (replaceFirst pat repl s).length + pat.length = s.length + repl.length := by
  intro s
  induction s with
  | nil =>
    intro h
    rw [containsSub, List.isEmpty_iff] at h
    exact absurd h hp
  | cons a rest ih =>
    intro h
    rw [containsSub, Bool.or_eq_true] at h
    rw [replaceFirst]
    by_cases hpre : pat.isPrefixOf (a :: rest) = true
    · rw [if_pos hpre, List.length_append, List.length_drop]
      have hle := (List.isPrefixOf_iff_prefix.mp hpre).length_le
      rw [List.length_cons] at hle ⊢
      omega
    · rw [if_neg hpre]
      simp only [List.length_cons]
      rcases h with h | h
      · exact absurd h hpre
      · have := ih h
        omega

theorem dupLoop_no_contains (pat repl : JStr) (hp : pat.length = 2) (hr : repl.length = 1) :
    ∀ (fuel : Nat) (s : JStr), s.length ≤ fuel →
      containsSub pat (dupLoop pat repl fuel s) = false := by
  intro fuel
  induction fuel with
  | zero =>
    intro s hs
    have : s = [] := List.eq_nil_of_length_eq_zero (Nat.le_zero.mp hs)
    subst this
    rw [dupLoop, containsSub]
    cases pat with
    | nil => rw [List.length_nil] at hp; omega
    | cons x xs => rfl
  | succ fuel ih =>
    intro s hs
    rw [dupLoop]
    by_cases hcon : containsSub pat s = true
    · rw [if_pos hcon]
      refine ih _ ?_
      have h1 := replaceFirst_length pat repl (by intro he; rw [he] at hp; simp at hp) s hcon
      have h2 := containsSub_length pat s hcon
      omega
    · rw [if_neg hcon]
      exact Bool.not_eq_true _ ▸ hcon

theorem containsSub_pair_false_iff (q : Nat) :
    ∀ s : JStr, (containsSub [q, q] s = false ↔
      List.Chain' (fun a b => ¬(q = a ∧ q = b)) s) := by
  intro s
  induction s with
  | nil =>
    constructor
    · intro _; exact List.chain'_nil
    · intro _; rfl
  | cons a rest ih =>
    cases rest with
    | nil =>
      constructor
      · intro _; exact List.chain'_singleton a
      · intro _
        simp [containsSub, List.isPrefixOf]
    | cons b r =>
      rw [containsSub, Bool.or_eq_false_iff, ih, List.chain'_cons]
      have hpre : ([q, q].isPrefixOf (a :: b :: r) = false) ↔ ¬(q = a ∧ q = b) := by
        simp only [List.isPrefixOf, Bool.and_true, Bool.and_eq_false_iff,
          beq_eq_false_iff_ne, ne_eq]
        tauto
      rw [hpre]

theorem replaceFirst_pair_head (r : Nat) :
    ∀ s : JStr, (replaceFirst [r, r] [r] s).head? = s.head? := by
  intro s
  cases s with
  | nil => rfl
  | cons a rest =>
    rw [replaceFirst]
    by_cases hpre : [r, r].isPrefixOf (a :: rest) = true
    · rw [if_pos hpre]
      have ha : r = a := by
        have := List.isPrefixOf_iff_prefix.mp hpre
        obtain ⟨t, ht⟩ := this
        rw [List.cons_append] at ht
        exact (List.cons.injEq _ _ _ _ ▸ ht).1
      rw [List.cons_append, List.head?_cons, List.head?_cons, ha]
    · rw [if_neg hpre, List.head?_cons, List.head?_cons]

theorem chain_replaceFirst_pair (q r : Nat) (hqr : r ≠ q) :
    ∀ s : JStr, List.Chain' (fun a b => ¬(q = a ∧ q = b)) s →
      List.Chain' (fun a b => ¬(q = a ∧ q = b)) (replaceFirst [r, r] [r] s) := by
  intro s
  induction s with
  | nil => intro _; exact List.chain'_nil
  | cons a rest ih =>
    intro hch
    obtain ⟨hhead, htail⟩ := List.chain'_cons'.mp hch
    rw [replaceFirst]
    by_cases hpre : [r, r].isPrefixOf (a :: rest) = true
    · rw [if_pos hpre]
      cases rest with
      | nil =>
        exact absurd hpre (by simp [List.isPrefixOf])
      | cons b r2 =>
        simp only [List.cons_append, List.nil_append, List.length_cons, List.length_nil,
          List.drop_succ_cons, List.drop_zero]
        refine List.chain'_cons'.mpr ⟨fun y _ => fun hco => hqr hco.1.symm, ?_⟩
        exact (List.chain'_cons'.mp htail).2
    · rw [if_neg hpre]
      refine List.chain'_cons'.mpr ⟨fun y hy => ?_, ih htail⟩
      rw [replaceFirst_pair_head r rest] at hy
      exact hhead y hy

theorem chain_dupLoop_pair (q r : Nat) (hqr : r ≠ q) :
    ∀ (fuel : Nat) (s : JStr), List.Chain' (fun a b => ¬(q = a ∧ q = b)) s →
      List.Chain' (fun a b => ¬(q = a ∧ q = b)) (dupLoop [r, r] [r] fuel s) := by
  intro fuel
  induction fuel with
  | zero => intro s h; exact h
  | succ fuel ih =>
    intro s h
    rw [dupLoop]
    split_ifs with hcon
    · exact ih _ (chain_replaceFirst_pair q r hqr s h)
    · exact h

/-- The characters that can appear in a normalized string once the
`CHAR_REPLACEMENTS`, diacritic, special-symbol and `@` passes have run: none
of them re-triggers one of those passes. -/
def goodChar (c : Nat) : Prop :=
  c ∉ activeKeys ∧ isDiacritic c = false ∧ isSpecialSymbol c = false ∧ c ≠ 0x40

instance (c : Nat) : Decidable (goodChar c) :=
  inferInstanceAs (Decidable
    (c ∉ activeKeys ∧ isDiacritic c = false ∧ isSpecialSymbol c = false ∧ c ≠ 0x40))

theorem exprStage_good (t2 : JStr) :
    ∀ c ∈ exprReplacements
      (((charReplacements t2).filter (fun c => !(isDiacritic c))).filter
        (fun c => !(isSpecialSymbol c))), goodChar c := by
  intro c hc
  have hat : ∀ x ∈ ascii " at ", goodChar x := by decide
  have hfe : ∀ x ∈ ascii "for example, ", goodChar x := by decide
  have hti : ∀ x ∈ ascii "that is, ", goodChar x := by decide
  have hpat : ascii "@" = [0x40] := by decide
  simp only [exprReplacements, EXPR_REPLACEMENTS, List.foldl_cons, List.foldl_nil] at hc
  rcases replaceAll_subset _ _ _ c hc with h1 | h1
  swap
  · exact hti c h1
  rcases replaceAll_subset _ _ _ c h1 with h2 | h2
  swap
  · exact hfe c h2
  rw [hpat] at h2
  have h40 : c ≠ 0x40 := replAux_single_ne 0x40 (ascii " at ") (by decide) _ c h2
  rcases replaceAll_subset _ _ _ c h2 with h3 | h3
  swap
  · exact hat c h3
  have hsp : isSpecialSymbol c = false := by
    have := List.of_mem_filter h3
    simpa using this
  have h4 : c ∈ (charReplacements t2).filter (fun c => !(isDiacritic c)) :=
    List.mem_of_mem_filter h3
  have hdi : isDiacritic c = false := by
    have := List.of_mem_filter h4
    simpa using this
  have hak : c ∉ activeKeys := charReplacements_chars t2 c (List.mem_of_mem_filter h4)
  exact ⟨hak, hdi, hsp, h40⟩

theorem preNorm_facts (nfkd : JStr → JStr) (x : JStr) :
    (∀ c ∈ preNormalize nfkd x, goodChar c) ∧
    containsSub [0x22, 0x22] (preNormalize nfkd x) = false ∧
    containsSub [0x27, 0x27] (preNormalize nfkd x) = false := by
  have hshape : preNormalize nfkd x =
      trimJS (collapseWS (dupQuotes (spacingPunct (exprReplacements
        (((charReplacements (stripEmoji (nfkd x))).filter (fun c => !(isDiacritic c))).filter
          (fun c => !(isSpecialSymbol c))))))) := rfl
  have h7 : ∀ c ∈ spacingPunct (exprReplacements
      (((charReplacements (stripEmoji (nfkd x))).filter (fun c => !(isDiacritic c))).filter
        (fun c => !(isSpecialSymbol c)))), goodChar c :=
    fun c hc => exprStage_good (stripEmoji (nfkd x)) c (mem_spacingPunct _ c hc)
  generalize ht7 : spacingPunct (exprReplacements
      (((charReplacements (stripEmoji (nfkd x))).filter (fun c => !(isDiacritic c))).filter
        (fun c => !(isSpecialSymbol c)))) = t7 at hshape h7
  have hdshape : dupQuotes t7 = collapseDup [0x60, 0x60] [0x60]
      (collapseDup [0x27, 0x27] [0x27] (collapseDup [0x22, 0x22] [0x22] t7)) := rfl
  have hg1 : ∀ c ∈ collapseDup [0x22, 0x22] [0x22] t7, goodChar c := by
    intro c hc
    rcases mem_collapseDup _ _ _ c hc with h | h
    · exact h7 c h
    · rw [List.mem_singleton] at h
      subst h
      exact (by decide : goodChar 0x22)
  have hg2 : ∀ c ∈ collapseDup [0x27, 0x27] [0x27] (collapseDup [0x22, 0x22] [0x22] t7),
      goodChar c := by
    intro c hc
    rcases mem_collapseDup _ _ _ c hc with h | h
    · exact hg1 c h
    · rw [List.mem_singleton] at h
      subst h
      exact (by decide : goodChar 0x27)
  have h60 : (0x60 : Nat) ∉
      collapseDup [0x27, 0x27] [0x27] (collapseDup [0x22, 0x22] [0x22] t7) := by
    intro hm
    exact (hg2 0x60 hm).1 (by decide)
  have hid3 : collapseDup [0x60, 0x60] [0x60]
      (collapseDup [0x27, 0x27] [0x27] (collapseDup [0x22, 0x22] [0x22] t7)) =
      collapseDup [0x27, 0x27] [0x27] (collapseDup [0x22, 0x22] [0x22] t7) :=
    dupLoop_id_of_not_contains _ _ _ _ (containsSub_head_false 0x60 [0x60] _ h60)
  have hg8 : ∀ c ∈ dupQuotes t7, goodChar c := by
    rw [hdshape, hid3]
    exact hg2
  have hc22 : containsSub [0x22, 0x22] (dupQuotes t7) = false := by
    rw [hdshape, hid3]
    unfold collapseDup
    rw [containsSub_pair_false_iff]
    refine chain_dupLoop_pair 0x22 0x27 (by decide) _ _ ?_
    rw [← containsSub_pair_false_iff]
    exact dupLoop_no_contains _ _ (by decide) (by decide) _ _ Nat.le.refl
  have hc27 : containsSub [0x27, 0x27] (dupQuotes t7) = false := by
    rw [hdshape, hid3]
    unfold collapseDup
    exact dupLoop_no_contains _ _ (by decide) (by decide) _ _ Nat.le.refl
  refine ⟨?_, ?_, ?_⟩
  · intro c hc
    rw [hshape] at hc
    rcases mem_cwAux _ false c (mem_trimJS _ c hc) with h | h
    · exact hg8 c h
    · subst h
      exact (by decide : goodChar 0x20)
  · rw [hshape, containsSub_pair_false_iff]
    refine List.Chain'.infix ?_ (trimJS_infixOf _)
    refine cwAux_chain_pres _ (fun x => ⟨fun hco => absurd hco.2 (by decide),
      fun hco => absurd hco.1 (by decide)⟩) _ false ?_
    rw [← containsSub_pair_false_iff]
    exact hc22
  · rw [hshape, containsSub_pair_false_iff]
    refine List.Chain'.infix ?_ (trimJS_infixOf _)
    refine cwAux_chain_pres _ (fun x => ⟨fun hco => absurd hco.2 (by decide),
      fun hco => absurd hco.1 (by decide)⟩) _ false ?_
    rw [← containsSub_pair_false_iff]
    exact hc27

/-- No space immediately followed by one of the spacing punctuation marks:
the condition under which the `/ ([,.!?;:'])/g` pass is the identity. -/
def noSpaceBeforePunct : JStr → Bool
  | [] => true
  | [_] => true
  | a :: b :: rest => !(a = 0x20 && isSpacingPunct b) && noSpaceBeforePunct (b :: rest)

theorem spacingPunct_id (s : JStr) (h : noSpaceBeforePunct s = true) :
    spacingPunct s = s := by
  induction s using spacingPunct.induct with
  | case1 => rfl
  | case2 a => rfl
  | case3 a b r hm ih =>
    rw [noSpaceBeforePunct, Bool.and_eq_true_iff] at h
    rw [hm] at h
    exact absurd h.1 (by decide)
  | case4 a b r hm ih =>
    rw [noSpaceBeforePunct, Bool.and_eq_true_iff] at h
    rw [spacingPunct, if_neg hm]
    exact congrArg _ (ih h.2)

theorem preNormalize_shape (nfkd : JStr → JStr) (x : JStr) :
    preNormalize nfkd x = trimJS (collapseWS (dupQuotes (spacingPunct (exprReplacements
      (((charReplacements (stripEmoji (nfkd x))).filter (fun c => !(isDiacritic c))).filter
        (fun c => !(isSpecialSymbol c))))))) := rfl

theorem preprocessText_shape (nfkd : JStr → JStr) (x : JStr) :
    preprocessText nfkd x = preNormalize nfkd x ∨
    preprocessText nfkd x = preNormalize nfkd x ++ [0x2E] := by
  have hsh : preprocessText nfkd x = if endsTerminal (preNormalize nfkd x) then
      preNormalize nfkd x else preNormalize nfkd x ++ [0x2E] := rfl
  rw [hsh]
  split_ifs with h
  · exact Or.inl rfl
  · exact Or.inr rfl

theorem preprocessText_good (nfkd : JStr → JStr) (x : JStr) :
    ∀ c ∈ preprocessText nfkd x, goodChar c := by
  intro c hc
  rcases preprocessText_shape nfkd x with h | h <;> rw [h] at hc
  · exact (preNorm_facts nfkd x).1 c hc
  · rcases List.mem_append.mp hc with h2 | h2
    · exact (preNorm_facts nfkd x).1 c h2
    · rw [List.mem_singleton] at h2
      subst h2
      exact (by decide : goodChar 0x2E)

theorem preprocessText_ws_space (nfkd : JStr → JStr) (x : JStr) :
    ∀ c ∈ preprocessText nfkd x, isWS c = true → c = 0x20 := by
  intro c hc hws
  rcases preprocessText_shape nfkd x with h | h <;>
    rw [h, preNormalize_shape, collapseWS] at hc
  · exact cwAux_ws_space _ false c (mem_trimJS _ c hc) hws
  · rcases List.mem_append.mp hc with h2 | h2
    · exact cwAux_ws_space _ false c (mem_trimJS _ c h2) hws
    · rw [List.mem_singleton] at h2
      subst h2
      exact absurd hws (by decide)

theorem preNormalize_nww (nfkd : JStr → JStr) (x : JStr) :
    List.Chain' (fun a b => ¬(isWS a = true ∧ isWS b = true)) (preNormalize nfkd x) := by
  have key : ∀ t : JStr, List.Chain' (fun a b => ¬(isWS a = true ∧ isWS b = true))
      (trimJS (cwAux false t)) :=
    fun t => List.Chain'.infix (cwAux_chain_nww t false) (trimJS_infixOf _)
  exact key _

/-- No two adjacent whitespace units (Bool form of the `collapseWS` output
invariant). -/
def noDoubleWS : JStr → Bool
  | [] => true
  | [_] => true
  | a :: b :: rest => !(isWS a && isWS b) && noDoubleWS (b :: rest)

theorem noDoubleWS_iff_chain :
    ∀ s : JStr, (noDoubleWS s = true ↔
      List.Chain' (fun a b => ¬(isWS a = true ∧ isWS b = true)) s) := by
  intro s
  induction s with
  | nil =>
    constructor
    · intro _; exact List.chain'_nil
    · intro _; rfl
  | cons a rest ih =>
    cases rest with
    | nil =>
      constructor
      · intro _; exact List.chain'_singleton a
      · intro _; rfl
    | cons b r =>
      rw [noDoubleWS, Bool.and_eq_true_iff, ih, List.chain'_cons]
      have hh : ((!(isWS a && isWS b)) = true) ↔ ¬(isWS a = true ∧ isWS b = true) := by
        cases h1 : isWS a <;> cases h2 : isWS b <;> simp
      rw [hh]

theorem noDoubleWS_cwAux (s : JStr) (b : Bool) : noDoubleWS (cwAux b s) = true :=
  (noDoubleWS_iff_chain _).mpr (cwAux_chain_nww s b)

theorem noDoubleWS_infixOf (l2 l : JStr) (hinf : l2 <:+: l) (h : noDoubleWS l = true) :
    noDoubleWS l2 = true := by
  refine (noDoubleWS_iff_chain l2).mpr ?_
  exact List.Chain'.infix ((noDoubleWS_iff_chain l).mp h) hinf

theorem noDoubleWS_append_dot (w : JStr) (h : noDoubleWS w = true) :
    noDoubleWS (w ++ [0x2E]) = true := by
  refine (noDoubleWS_iff_chain _).mpr (List.chain'_append.mpr
    ⟨(noDoubleWS_iff_chain w).mp h, List.chain'_singleton _, ?_⟩)
  intro xx hx z hz
  rw [List.head?_cons, Option.mem_def, Option.some_inj] at hz
  subst hz
  exact fun hco => absurd hco.2 (by decide)

theorem preNormalize_noDoubleWS (nfkd : JStr → JStr) (x : JStr) :
    noDoubleWS (preNormalize nfkd x) = true :=
  noDoubleWS_infixOf _ _ (trimJS_infixOf _) (noDoubleWS_cwAux _ false)

theorem preprocessText_noDoubleWS (nfkd : JStr → JStr) (x : JStr) :
    noDoubleWS (preprocessText nfkd x) = true := by
  rcases preprocessText_shape nfkd x with h | h <;> rw [h]
  · exact preNormalize_noDoubleWS nfkd x
  · exact noDoubleWS_append_dot _ (preNormalize_noDoubleWS nfkd x)

theorem cwAux_false_id_bool (s : JStr) (hchar : ∀ c ∈ s, isWS c = true → c = 0x20)
    (hnd : noDoubleWS s = true) : cwAux false s = s :=
  cwAux_false_id s hchar ((noDoubleWS_iff_chain s).mp hnd)

theorem containsSub_pair_append_dot (q : Nat) (hq : q ≠ 0x2E) (w : JStr)
    (h : containsSub [q, q] w = false) : containsSub [q, q] (w ++ [0x2E]) = false := by
  rw [containsSub_pair_false_iff] at h ⊢
  refine List.chain'_append.mpr ⟨h, List.chain'_singleton _, ?_⟩
  intro xx hx y hy
  rw [List.head?_cons, Option.mem_def, Option.some_inj] at hy
  subst hy
  exact fun hco => hq hco.2

theorem preprocessText_no_dbl (nfkd : JStr → JStr) (x : JStr) :
    containsSub [0x22, 0x22] (preprocessText nfkd x) = false ∧
    containsSub [0x27, 0x27] (preprocessText nfkd x) = false := by
  obtain ⟨hg, h22, h27⟩ := preNorm_facts nfkd x
  constructor <;> rcases preprocessText_shape nfkd x with h | h <;> rw [h]
  · exact h22
  · exact containsSub_pair_append_dot 0x22 (by decide) _ h22
  · exact h27
  · exact containsSub_pair_append_dot 0x27 (by decide) _ h27

theorem preNormalize_head_not_ws (nfkd : JStr → JStr) (x : JStr) :
    ∀ c, (preNormalize nfkd x).head? = some c → isWS c = false := by
  rw [preNormalize_shape]
  exact fun c hc => trimJS_head_not_ws _ c hc

theorem preNormalize_last_not_ws (nfkd : JStr → JStr) (x : JStr) :
    ∀ c, (preNormalize nfkd x).getLast? = some c → isWS c = false := by
  rw [preNormalize_shape]
  exact fun c hc => trimJS_last_not_ws _ c hc

theorem preprocessText_head_not_ws (nfkd : JStr → JStr) (x : JStr) :
    ∀ c, (preprocessText nfkd x).head? = some c → isWS c = false := by
  intro c hc
  rcases preprocessText_shape nfkd x with h | h <;> rw [h] at hc
  · exact preNormalize_head_not_ws nfkd x c hc
  · cases hw : preNormalize nfkd x with
    | nil =>
      rw [hw, List.nil_append, List.head?_cons, Option.some_inj] at hc
      rw [← hc]
      decide
    | cons a t =>
      rw [hw, List.cons_append, List.head?_cons, Option.some_inj] at hc
      rw [← hc]
      exact preNormalize_head_not_ws nfkd x a (by rw [hw, List.head?_cons])

theorem preprocessText_last_not_ws (nfkd : JStr → JStr) (x : JStr) :
    ∀ c, (preprocessText nfkd x).getLast? = some c → isWS c = false := by
  intro c hc
  rcases preprocessText_shape nfkd x with h | h <;> rw [h] at hc
  · exact preNormalize_last_not_ws nfkd x c hc
  · rw [List.getLast?_concat, Option.some_inj] at hc
    rw [← hc]
    decide

theorem exprReplacements_shape (s : JStr) : exprReplacements s =
    replaceAll (ascii "i.e.,") (ascii "that is, ")
      (replaceAll (ascii "e.g.,") (ascii "for example, ")
        (replaceAll (ascii "@") (ascii " at ") s)) := rfl

theorem dupQuotes_shape (s : JStr) : dupQuotes s =
    collapseDup [0x60, 0x60] [0x60] (collapseDup [0x27, 0x27] [0x27]
      (collapseDup [0x22, 0x22] [0x22] s)) := rfl

theorem preprocessText_ite (nfkd : JStr → JStr) (x : JStr) :
    preprocessText nfkd x = if endsTerminal (preNormalize nfkd x) then
      preNormalize nfkd x else preNormalize nfkd x ++ [0x2E] := rfl

/-- **C1 (amended).** The normalization pipeline is idempotent on every input
whose normalized output is NFKD-stable, contains no emoji code point and no
high surrogate, has no space immediately before one of `,.!?;:'`, and contains
neither `e.g.,` nor `i.e.,`. (The unconditional claim is refuted by
`normalize_not_idempotent`: a second pass can delete a space left before
punctuation by whitespace collapsing, or expand a newly formed `e.g.,`.) -/
theorem normalize_idempotent_amended (nfkd : JStr → JStr) (x : JStr)
    (h1 : nfkd (preprocessText nfkd x) = preprocessText nfkd x)
    (h2 : ∀ c ∈ preprocessText nfkd x, isEmojiCP c = false ∧ isHighSurrogate c = false)
    (h3 : noSpaceBeforePunct (preprocessText nfkd x) = true)
    (h4 : containsSub (ascii "e.g.,") (preprocessText nfkd x) = false)
    (h5 : containsSub (ascii "i.e.,") (preprocessText nfkd x) = false) :
    preprocessText nfkd (preprocessText nfkd x) = preprocessText nfkd x := by
  have hgood := preprocessText_good nfkd x
  have hws := preprocessText_ws_space nfkd x
  have hnd := preprocessText_noDoubleWS nfkd x
  have hdbl := preprocessText_no_dbl nfkd x
  have hhead := preprocessText_head_not_ws nfkd x
  have hlast := preprocessText_last_not_ws nfkd x
  have hterm := (preprocessText_ends nfkd x).1
  have e2 : stripEmoji (preprocessText nfkd x) = preprocessText nfkd x :=
    stripEmoji_id _ h2
  have e3 : charReplacements (preprocessText nfkd x) = preprocessText nfkd x :=
    charReplacements_id _ (fun c hc => (hgood c hc).1)
  have e4 : (preprocessText nfkd x).filter (fun c => !(isDiacritic c)) =
      preprocessText nfkd x :=
    List.filter_eq_self.mpr (fun c hc => by rw [(hgood c hc).2.1]; rfl)
  have e5 : (preprocessText nfkd x).filter (fun c => !(isSpecialSymbol c)) =
      preprocessText nfkd x :=
    List.filter_eq_self.mpr (fun c hc => by rw [(hgood c hc).2.2.1]; rfl)
  have h40 : (0x40 : Nat) ∉ preprocessText nfkd x := fun hm => (hgood 0x40 hm).2.2.2 rfl
  have e6 : exprReplacements (preprocessText nfkd x) = preprocessText nfkd x := by
    rw [exprReplacements_shape, show ascii "@" = [0x40] from rfl,
      replaceAll_id_of_not_contains _ _ _ (containsSub_head_false 0x40 [] _ h40),
      replaceAll_id_of_not_contains _ _ _ h4,
      replaceAll_id_of_not_contains _ _ _ h5]
  have e7 : spacingPunct (preprocessText nfkd x) = preprocessText nfkd x :=
    spacingPunct_id _ h3
  have h60 : (0x60 : Nat) ∉ preprocessText nfkd x := fun hm => (hgood 0x60 hm).1 (by decide)
  have e8 : dupQuotes (preprocessText nfkd x) = preprocessText nfkd x := by
    rw [dupQuotes_shape,
      show collapseDup [0x22, 0x22] [0x22] (preprocessText nfkd x) = preprocessText nfkd x
        from dupLoop_id_of_not_contains _ _ _ _ hdbl.1,
      show collapseDup [0x27, 0x27] [0x27] (preprocessText nfkd x) = preprocessText nfkd x
        from dupLoop_id_of_not_contains _ _ _ _ hdbl.2,
      show collapseDup [0x60, 0x60] [0x60] (preprocessText nfkd x) = preprocessText nfkd x
        from dupLoop_id_of_not_contains _ _ _ _ (containsSub_head_false 0x60 [0x60] _ h60)]
  have e9 : collapseWS (preprocessText nfkd x) = preprocessText nfkd x :=
    cwAux_false_id_bool _ hws hnd
  have e10 : trimJS (preprocessText nfkd x) = preprocessText nfkd x :=
    trimJS_id _ hhead hlast
  have hpre : preNormalize nfkd (preprocessText nfkd x) = preprocessText nfkd x := by
    rw [preNormalize_shape, h1, e2, e3, e4, e5,
      show collapseWS (dupQuotes (spacingPunct (exprReplacements (preprocessText nfkd x)))) =
          preprocessText nfkd x by rw [e6, e7, e8, e9]]
    exact e10
  rw [preprocessText_ite nfkd (preprocessText nfkd x), hpre, if_pos hterm]

/-- **C1 counterexample.** With the identity as NFKD (exact on ASCII input),
`"a  ."` normalizes to `"a ."` (whitespace collapsing leaves a space before
the period, which the spacing pass had already finished scanning), and a
second pass removes that space: normalization is not idempotent. -/
theorem normalize_not_idempotent :
    preprocessText (fun s => s) (ascii "a  .") = ascii "a ." ∧
    preprocessText (fun s => s) (ascii "a .") = ascii "a." ∧
    preprocessText (fun s => s) (preprocessText (fun s => s) (ascii "a  .")) ≠
      preprocessText (fun s => s) (ascii "a  .") := by
  refine ⟨by decide, by decide, by decide⟩

/-- Witness for `normalize_idempotent_amended` at the concrete input `"hi"`
(normalized output `"hi."`), with the identity as NFKD. -/
theorem normalize_idempotent_amended_witness :
    preprocessText (fun s => s) (preprocessText (fun s => s) (ascii "hi")) =
      preprocessText (fun s => s) (ascii "hi") :=
  normalize_idempotent_amended (fun s => s) (ascii "hi") rfl (by decide) (by decide)
    (by decide) (by decide)
